import Mathlib

/-!
Verification of the memcad benchmark corpus.

This development gives a shallow embedding of the three benchmark programs of
the repository (`bench/rt/former-submem-05.c`, `bench/rt/tree-p-19.c`,
`bench/rt/graph-10.c`) and proves the corpus-level claims about them.  The
heap-shape analyzer itself is not part of the repository's sources, so the
parts of the development that concern it (the inductive predicates `list`,
`bintreep_o` and `graphc`, the `check_inductive` verdicts, the directive
grammar and the symbolic-heap engine) are modelled from the specification and
are marked as such in their doc comments.

Pointer values are encoded as natural numbers with `0` standing for `null`.
-/

namespace Memcad

/-! Generic while-loop machinery, shared by the three programs. -/

/-- Big-step semantics of a deterministic `while (g) { b }` loop:
`While g b s s'` holds when the loop, started in state `s`, terminates in
state `s'`. -/
inductive While {σ : Type} (g : σ → Bool) (b : σ → σ) : σ → σ → Prop
  | done {s : σ} : g s = false → While g b s s
  | step {s s' : σ} : g s = true → While g b (b s) s' → While g b s s'

/-- Fuel-bounded iteration of a while loop, used to compute terminating runs. -/
def iterWhile {σ : Type} (g : σ → Bool) (b : σ → σ) : Nat → σ → σ
  | 0, s => s
  | n + 1, s => if g s then iterWhile g b n (b s) else s

/-- A while loop is deterministic: its big-step result is unique. -/
theorem While_det {σ : Type} {g : σ → Bool} {b : σ → σ} {s s₁ s₂ : σ}
    (h₁ : While g b s s₁) (h₂ : While g b s s₂) : s₁ = s₂ := by
  induction h₁ with
  | done hg =>
    cases h₂ with
    | done _ => rfl
    | step hg' _ => rw [hg] at hg'; exact absurd hg' (by simp)
  | step hg _ ih =>
    cases h₂ with
    | done hg' => rw [hg] at hg'; exact absurd hg' (by simp)
    | step _ h₂' => exact ih h₂'

/-- If fuel-bounded iteration reaches a state falsifying the guard, that state
is the big-step result of the loop. -/
theorem While_iterWhile {σ : Type} (g : σ → Bool) (b : σ → σ) (n : Nat) (s : σ)
    (h : g (iterWhile g b n s) = false) : While g b s (iterWhile g b n s) := by
  induction n generalizing s with
  | zero => exact While.done h
  | succ n ih =>
    by_cases hg : g s = true
    · have hit : iterWhile g b (n + 1) s = iterWhile g b n (b s) := by
        simp [iterWhile, hg]
      rw [hit] at h ⊢
      exact While.step hg (ih (b s) h)
    · have hit : iterWhile g b (n + 1) s = s := by
        simp [iterWhile]
        intro hc
        exact absurd hc hg
      rw [hit] at h ⊢
      exact While.done h

/-! The 10-cell list program (`former-submem-05.c`).

The program declares `elist t[10]`, pushes each of the 10 array cells onto the
list `l`, then takes two guarded `next` steps with a cursor `k`, checking the
`list` shape after each step.  The address `&t[i]` is encoded as `i + 1`. -/

/-- A cell of `struct elist { struct elist * next; int data; }`. -/
structure Elist where
  next : Nat
  data : Int
deriving DecidableEq

/-- Memory-safety error kinds raised by dereferences (§7 of the spec). -/
inductive MemErr
  | nullDeref
  | useAfterFree
  | invalidDeref
deriving DecidableEq

/-- Reduction of `Except` bind on a success value. -/
theorem exceptBind_ok {ε α β : Type} (a : α) (f : α → Except ε β) :
    (Except.ok a >>= f : Except ε β) = f a := rfl

/-- Reduction of `Except` bind on an error value. -/
theorem exceptBind_error {ε α β : Type} (e : ε) (f : α → Except ε β) :
    (Except.error e >>= f : Except ε β) = .error e := rfl

/-- `pure` on `Except` is `ok`. -/
theorem exceptPure {ε α : Type} (a : α) : (pure a : Except ε α) = .ok a := rfl

/-- State of the list program: the loop counter `i` (also reused for
`i = k->data`), the array `t`, the list head `l`, the cursor `k`, and the
ordered PASS verdicts of the `_memcad` checks executed so far. -/
structure LState where
  i : Int
  t : List Elist
  l : Nat
  k : Nat
  diags : List Bool
deriving DecidableEq

/-- Reading the cell at address `x` in the array-backed heap `t`:
`null` dereference if `x = 0`, otherwise the array cell at index `x - 1`. -/
def heapGetL (t : List Elist) (x : Nat) : Except MemErr Elist :=
  if x = 0 then .error .nullDeref
  else
    match t[x - 1]? with
    | some c => .ok c
    | none => .error .invalidDeref

/-- Guard of the construction loop: `i < 10`. -/
def listGuard (s : LState) : Bool := s.i < 10

/-- Body of the construction loop:
`t[i].next = l; t[i].data = 0; l = &t[i]; i = i + 1;`. -/
def listBody (s : LState) : LState :=
  { s with
    t := s.t.set s.i.toNat { next := s.l, data := 0 },
    l := s.i.toNat + 1,
    i := s.i + 1 }

/-- Initial state of `main`: `l = null; i = 0;`, the array contents and `k`
uninitialized (arbitrary). -/
def initL (t0 : List Elist) (k0 : Nat) : LState :=
  { i := 0, t := t0, l := 0, k := k0, diags := [] }

/-- Modelled from the spec: the `list` inductive predicate of §4.2 in
length-indexed form (the checker itself is not among the repository's source
files).  `listChainN t x n` holds iff, starting from address `x`, the `next`
chain consists of exactly `n` explicit cells and terminates at `null`. -/
def listChainN (t : List Elist) : Nat → Nat → Bool
  | x, 0 => x == 0
  | x, n + 1 =>
    x != 0 &&
      match t[x - 1]? with
      | some c => listChainN t c.next n
      | none => false

/-- Modelled from the spec: the PASS verdict of `check_inductive( x, list )`
(§4.5) — the explicit cells reachable from `x` fold into a `list` summary,
i.e. the `next` chain from `x` reaches `null`.  The fold search visits each
of the finitely many explicit cells at most once, so chains longer than the
cell count never fold. -/
def checkListInd (t : List Elist) (x : Nat) : Bool :=
  (List.range (t.length + 1)).any fun n => listChainN t x n

/-- Lines 22–34 of the source: `k = l;`, the first `check_inductive( l, list )`,
then under the guard `k != null` the step `i = k->data; k = k->next;` with its
check, and under a second `k != null` guard the step `k = k->next;` with its
check.  The source's `assert( k != null )` sits under the same guard and reads
no memory, so it has no effect on the state. -/
def afterLoop (s : LState) : Except MemErr LState := do
  let s := { s with k := s.l }
  let s := { s with diags := s.diags ++ [checkListInd s.t s.l] }
  if s.k ≠ 0 then
    let c ← heapGetL s.t s.k
    let s := { s with i := c.data }
    let c ← heapGetL s.t s.k
    let s := { s with k := c.next }
    let s := { s with diags := s.diags ++ [checkListInd s.t s.k] }
    if s.k ≠ 0 then
      let c ← heapGetL s.t s.k
      let s := { s with k := c.next }
      let s := { s with diags := s.diags ++ [checkListInd s.t s.k] }
      return s
    else
      return s
  else
    return s

/-- The array contents after the construction loop: cell `i` holds
`next = i` (the encoding of `&t[i-1]`, which is `null` for `i = 0`) and
`data = 0`. -/
def builtT : List Elist :=
  [⟨0, 0⟩, ⟨1, 0⟩, ⟨2, 0⟩, ⟨3, 0⟩, ⟨4, 0⟩, ⟨5, 0⟩, ⟨6, 0⟩, ⟨7, 0⟩, ⟨8, 0⟩, ⟨9, 0⟩]

/-- A list of length 10 is a literal 10-element list. -/
theorem length10_shape {α : Type} (xs : List α) (h : xs.length = 10) :
    ∃ a0 a1 a2 a3 a4 a5 a6 a7 a8 a9 : α,
      xs = [a0, a1, a2, a3, a4, a5, a6, a7, a8, a9] := by
  match xs, h with
  | [a0, a1, a2, a3, a4, a5, a6, a7, a8, a9], _ =>
    exact ⟨a0, a1, a2, a3, a4, a5, a6, a7, a8, a9, rfl⟩

/-- Ten fuel-bounded iterations of the construction loop compute the final
state, for any initial array contents. -/
theorem listLoop_iter (a0 a1 a2 a3 a4 a5 a6 a7 a8 a9 : Elist) (k0 : Nat) :
    iterWhile listGuard listBody 10 (initL [a0, a1, a2, a3, a4, a5, a6, a7, a8, a9] k0)
      = { i := 10, t := builtT, l := 10, k := k0, diags := [] } := by
  rfl

/-- The construction loop terminates in the fully-built state. -/
theorem listLoop_run (t0 : List Elist) (k0 : Nat) (h : t0.length = 10)
    (s' : LState) (hrun : While listGuard listBody (initL t0 k0) s') :
    s' = { i := 10, t := builtT, l := 10, k := k0, diags := [] } := by
  obtain ⟨a0, a1, a2, a3, a4, a5, a6, a7, a8, a9, rfl⟩ := length10_shape t0 h
  have hfin := While_iterWhile listGuard listBody 10
    (initL [a0, a1, a2, a3, a4, a5, a6, a7, a8, a9] k0)
    (by rw [listLoop_iter]; rfl)
  rw [listLoop_iter] at hfin
  exact While_det hrun hfin

/-- Claim C1: after the construction loop of `former-submem-05.c`, the
variable `l` heads a null-terminated singly linked list of exactly 10 cells,
and `check_inductive( l, list )` at that point reports PASS. -/
theorem C1_list_built (t0 : List Elist) (k0 : Nat) (h : t0.length = 10)
    (s' : LState) (hrun : While listGuard listBody (initL t0 k0) s') :
    listChainN s'.t s'.l 10 = true ∧ checkListInd s'.t s'.l = true := by
  rw [listLoop_run t0 k0 h s' hrun]
  exact ⟨rfl, rfl⟩

/-- Witness for C1 at a concrete input: the all-zero initial array. -/
theorem C1_list_built_witness :
    listChainN builtT 10 10 = true ∧ checkListInd builtT 10 = true := by
  have h := C1_list_built (List.replicate 10 ⟨0, 0⟩) 0 (by decide)
    (iterWhile listGuard listBody 10 (initL (List.replicate 10 ⟨0, 0⟩) 0))
    (While_iterWhile listGuard listBody 10 (initL (List.replicate 10 ⟨0, 0⟩) 0)
      (by decide))
  exact h

/-- Claim C3: in the 10-cell list program, under the guard `k != null` the two
dereference steps succeed (no `NullDerefError` on any path), and all three
`check_inductive` directives — the one on `l` and the two on `k` after each
`next` step — report PASS. -/
theorem C3_guarded_steps (t0 : List Elist) (k0 : Nat) (h : t0.length = 10)
    (s' : LState) (hrun : While listGuard listBody (initL t0 k0) s') :
    ∃ s'' : LState, afterLoop s' = .ok s'' ∧ s''.diags = [true, true, true] := by
  rw [listLoop_run t0 k0 h s' hrun]
  exact ⟨_, rfl, rfl⟩

/-- Witness for C3 at a concrete input: the all-zero initial array. -/
theorem C3_guarded_steps_witness :
    ∃ s'' : LState,
      afterLoop { i := 10, t := builtT, l := 10, k := 0, diags := [] } = .ok s'' ∧
        s''.diags = [true, true, true] :=
  C3_guarded_steps (List.replicate 10 ⟨0, 0⟩) 0 (by decide)
    { i := 10, t := builtT, l := 10, k := 0, diags := [] }
    (by
      have hfin := While_iterWhile listGuard listBody 10
        (initL (List.replicate 10 ⟨0, 0⟩) 0) (by decide)
      have : iterWhile listGuard listBody 10 (initL (List.replicate 10 ⟨0, 0⟩) 0)
          = { i := 10, t := builtT, l := 10, k := 0, diags := [] } := by decide
      rwa [this] at hfin)

/-! The tree leaf-removal program (`tree-p-19.c`).

The program assumes (`add_inductive`) a parent-annotated binary tree `t` with
expected parent `p`, then runs a loop guarded by `cond && c != null` whose
body forks nondeterministically on the `volatile` variable `cond` into four
branches: descend left, descend right, try to remove a left leaf, try to
remove a right leaf. -/

/-- A cell of `struct etree { struct etree *l, *r, *p; int data; }`. -/
structure Etree where
  l : Nat
  r : Nat
  p : Nat
  data : Int
deriving DecidableEq

/-- Heap of the tree program: a partial map from addresses to cells; `none`
marks an address that is unallocated or freed. -/
def THeap : Type := Nat → Option Etree

/-- State of the tree program: the heap, the tombstoned (freed) locations in
order of freeing, and the cursor variable `c`. -/
structure TState where
  heap : THeap
  freed : List Nat
  c : Nat

/-- Reading the cell at address `x`: `NullDerefError` on `null`,
`UseAfterFreeError` on a tombstoned location, and an invalid dereference on
an unallocated one (§4.3 of the spec). -/
def readT (s : TState) (x : Nat) : Except MemErr Etree :=
  if x = 0 then .error .nullDeref
  else if x ∈ s.freed then .error .useAfterFree
  else
    match s.heap x with
    | some cell => .ok cell
    | none => .error .invalidDeref

/-- Branch `c = c->l;` of the loop body. -/
def stepLeft (s : TState) : Except MemErr TState := do
  let cell ← readT s s.c
  return { s with c := cell.l }

/-- Branch `c = c->r;` of the loop body. -/
def stepRight (s : TState) : Except MemErr TState := do
  let cell ← readT s s.c
  return { s with c := cell.r }

/-- Branch
`if (c->l != null) { if (c->l->l == null && c->l->r == null) { m = c->l; c->l = null; free(m); } }`
of the loop body.  The write `c->l = null` happens before `free(m)`, and
`free` requires its argument to be a live explicit cell. -/
def removeLeft (s : TState) : Except MemErr TState := do
  let cell ← readT s s.c
  if cell.l ≠ 0 then
    let lc ← readT s cell.l
    if lc.l = 0 ∧ lc.r = 0 then
      let m := cell.l
      let h1 : THeap := fun x => if x = s.c then some { cell with l := 0 } else s.heap x
      let s1 : TState := { heap := h1, freed := s.freed, c := s.c }
      let _ ← readT s1 m
      return { heap := fun x => if x = m then none else h1 x, freed := m :: s.freed, c := s.c }
    else
      return s
  else
    return s

/-- Branch
`if (c->r != null) { if (c->r->l == null && c->r->r == null) { m = c->r; c->r = null; free(m); } }`
of the loop body. -/
def removeRight (s : TState) : Except MemErr TState := do
  let cell ← readT s s.c
  if cell.r ≠ 0 then
    let rc ← readT s cell.r
    if rc.l = 0 ∧ rc.r = 0 then
      let m := cell.r
      let h1 : THeap := fun x => if x = s.c then some { cell with r := 0 } else s.heap x
      let s1 : TState := { heap := h1, freed := s.freed, c := s.c }
      let _ ← readT s1 m
      return { heap := fun x => if x = m then none else h1 x, freed := m :: s.freed, c := s.c }
    else
      return s
  else
    return s

/-- One execution of the loop body: the `volatile` guard `cond` forks the
execution into one of the four branches. -/
inductive TreeBody : TState → Except MemErr TState → Prop
  | left (s : TState) : TreeBody s (stepLeft s)
  | right (s : TState) : TreeBody s (stepRight s)
  | removeL (s : TState) : TreeBody s (removeLeft s)
  | removeR (s : TState) : TreeBody s (removeRight s)

/-- Terminating runs of `while (cond && c != null) { body }`: since `cond` is
nondeterministic the loop may exit at any state, and a new iteration requires
`c != null`. -/
inductive TreeRun : TState → TState → Prop
  | done (s : TState) : TreeRun s s
  | step (s s' s'' : TState) : s.c ≠ 0 → TreeBody s (.ok s') → TreeRun s' s'' →
      TreeRun s s''

/-- Erroring runs of the loop: after zero or more successful iterations, one
iteration raises a memory error. -/
inductive TreeRunErr : TState → MemErr → Prop
  | here (s : TState) (e : MemErr) : s.c ≠ 0 → TreeBody s (.error e) → TreeRunErr s e
  | step (s s' : TState) (e : MemErr) : s.c ≠ 0 → TreeBody s (.ok s') →
      TreeRunErr s' e → TreeRunErr s e

/-- Modelled from the spec: the `bintreep_o` inductive predicate (§4.2, §9)
with an explicit footprint (the analyzer is not among the repository's source
files).  A summary rooted at `root` with expected parent `par` is either the
base case (`root` null, empty footprint) or a concrete cell whose `p` field
equals `par` and whose children are subtrees with expected parent `root`; the
disjointness side conditions make the footprint a separating conjunction. -/
inductive TreeP (h : THeap) : Nat → Nat → Finset Nat → Prop
  | leaf (par : Nat) : TreeP h 0 par ∅
  | node (root par : Nat) (cell : Etree) (Fl Fr : Finset Nat) :
      root ≠ 0 → h root = some cell → cell.p = par →
      TreeP h cell.l root Fl → TreeP h cell.r root Fr →
      root ∉ Fl → root ∉ Fr → Disjoint Fl Fr →
      TreeP h root par (insert root (Fl ∪ Fr))

/-- A summary rooted at `null` has an empty footprint. -/
theorem TreeP_zero {h : THeap} {par : Nat} {F : Finset Nat}
    (hT : TreeP h 0 par F) : F = ∅ := by
  cases hT with
  | leaf => rfl
  | node root par cell Fl Fr hne => exact absurd rfl hne

/-- A non-null root belongs to its own footprint. -/
theorem TreeP_root_mem {h : THeap} {root par : Nat} {F : Finset Nat}
    (hT : TreeP h root par F) (hne : root ≠ 0) : root ∈ F := by
  cases hT with
  | leaf => exact absurd rfl hne
  | node => exact Finset.mem_insert_self _ _

/-- Heaps agreeing on the footprint carry the same summary (frame lemma). -/
theorem TreeP_frame {h : THeap} (h' : THeap) {root par : Nat} {F : Finset Nat}
    (hT : TreeP h root par F) :
    (∀ y ∈ F, h' y = h y) → TreeP h' root par F := by
  induction hT with
  | leaf par => exact fun _ => TreeP.leaf par
  | node root par cell Fl Fr hne hget hp hL hR hnl hnr hdisj ihL ihR =>
    intro hagree
    refine TreeP.node root par cell Fl Fr hne ?_ hp ?_ ?_ hnl hnr hdisj
    · rw [hagree root (Finset.mem_insert_self _ _)]; exact hget
    · exact ihL fun y hy =>
        hagree y (Finset.mem_insert_of_mem (Finset.mem_union_left _ hy))
    · exact ihR fun y hy =>
        hagree y (Finset.mem_insert_of_mem (Finset.mem_union_right _ hy))

/-- Every footprint member roots a subtree of the summary whose footprint is
inside the summary's. -/
theorem TreeP_subtree {h : THeap} {root par : Nat} {F : Finset Nat}
    (hT : TreeP h root par F) :
    ∀ x ∈ F, ∃ parx Fx, TreeP h x parx Fx ∧ Fx ⊆ F := by
  induction hT with
  | leaf par => intro x hx; exact absurd hx (Finset.not_mem_empty x)
  | node root par cell Fl Fr hne hget hp hL hR hnl hnr hdisj ihL ihR =>
    intro x hx
    rcases Finset.mem_insert.mp hx with rfl | hx'
    · exact ⟨par, _, TreeP.node x par cell Fl Fr hne hget hp hL hR hnl hnr hdisj,
        Finset.Subset.refl _⟩
    · rcases Finset.mem_union.mp hx' with hxl | hxr
      · obtain ⟨px, Fx, hTx, hsub⟩ := ihL x hxl
        exact ⟨px, Fx, hTx,
          hsub.trans ((Finset.subset_union_left).trans (Finset.subset_insert _ _))⟩
      · obtain ⟨px, Fx, hTx, hsub⟩ := ihR x hxr
        exact ⟨px, Fx, hTx,
          hsub.trans ((Finset.subset_union_right).trans (Finset.subset_insert _ _))⟩

/-- Footprint members are non-null locations. -/
theorem TreeP_mem_ne_zero {h : THeap} {root par : Nat} {F : Finset Nat}
    (hT : TreeP h root par F) {x : Nat} (hx : x ∈ F) : x ≠ 0 := by
  induction hT with
  | leaf par => exact absurd hx (Finset.not_mem_empty x)
  | node root par cell Fl Fr hne hget hp hL hR hnl hnr hdisj ihL ihR =>
    rcases Finset.mem_insert.mp hx with rfl | hx'
    · exact hne
    · rcases Finset.mem_union.mp hx' with hxl | hxr
      · exact ihL hxl
      · exact ihR hxr

/-- The cell stored at a footprint member: it exists, and each of its child
fields is null or again a footprint member distinct from the node itself. -/
theorem TreeP_cell_mem {h : THeap} {root par : Nat} {F : Finset Nat}
    (hT : TreeP h root par F) {x : Nat} (hx : x ∈ F) :
    ∃ cellx, h x = some cellx ∧ x ≠ 0 ∧
      (cellx.l = 0 ∨ (cellx.l ∈ F ∧ cellx.l ≠ x)) ∧
      (cellx.r = 0 ∨ (cellx.r ∈ F ∧ cellx.r ≠ x)) := by
  obtain ⟨parx, Fx, hTx, hsub⟩ := TreeP_subtree hT x hx
  cases hTx with
  | leaf => exact absurd rfl (TreeP_mem_ne_zero hT hx)
  | node x parx cellx Fl Fr hne hget hp hLx hRx hnl hnr hdisj =>
    refine ⟨cellx, hget, hne, ?_, ?_⟩
    · by_cases hl0 : cellx.l = 0
      · exact Or.inl hl0
      · refine Or.inr ⟨hsub ?_, ?_⟩
        · exact Finset.mem_insert_of_mem
            (Finset.mem_union_left _ (TreeP_root_mem hLx hl0))
        · intro hlx
          exact hnl (hlx ▸ TreeP_root_mem hLx hl0)
    · by_cases hr0 : cellx.r = 0
      · exact Or.inl hr0
      · refine Or.inr ⟨hsub ?_, ?_⟩
        · exact Finset.mem_insert_of_mem
            (Finset.mem_union_right _ (TreeP_root_mem hRx hr0))
        · intro hrx
          exact hnr (hrx ▸ TreeP_root_mem hRx hr0)

/-- Inversion of a summary at a non-null root. -/
theorem TreeP_node_inv {h : THeap} {root par : Nat} {F : Finset Nat}
    (hT : TreeP h root par F) (hne : root ≠ 0) :
    ∃ cell Fl Fr, h root = some cell ∧ cell.p = par ∧
      TreeP h cell.l root Fl ∧ TreeP h cell.r root Fr ∧
      root ∉ Fl ∧ root ∉ Fr ∧ Disjoint Fl Fr ∧ F = insert root (Fl ∪ Fr) := by
  cases hT with
  | leaf => exact absurd rfl hne
  | node root par cell Fl Fr hne' hget hp hL hR hnl hnr hdisj =>
    exact ⟨cell, Fl, Fr, hget, hp, hL, hR, hnl, hnr, hdisj, rfl⟩

/-- Nulling the `l` field of a node whose left child is a leaf (both child
fields null) and deleting that leaf yields a summary on the footprint minus
the leaf. -/
theorem TreeP_remove_left {h : THeap} {root par : Nat} {F : Finset Nat}
    {x : Nat} {cellx mc : Etree} (hT : TreeP h root par F) :
    x ∈ F → h x = some cellx → cellx.l ≠ 0 → h cellx.l = some mc →
    mc.l = 0 → mc.r = 0 →
    TreeP (fun y => if y = cellx.l then none
                    else if y = x then some { cellx with l := 0 } else h y)
      root par (F.erase cellx.l) := by
  induction hT with
  | leaf par => intro hx _ _ _ _ _; exact absurd hx (Finset.not_mem_empty x)
  | node root par cell Fl Fr hne hget hp hL hR hnl hnr hdisj ihL ihR =>
    intro hx hcx hml hmc hmcl hmcr
    rcases Finset.mem_insert.mp hx with rfl | hx'
    · -- the node whose left child is removed is the root itself
      have hcc : cellx = cell := Option.some.inj (hcx ▸ hget)
      subst hcc
      obtain ⟨mcell, Fll, Flr, hmget, hmp, hmL, hmR, hml1, hmr1, hd1, hFl⟩ :=
        TreeP_node_inv hL hml
      have hmcc : mc = mcell := by
        rw [hmc] at hmget; exact Option.some.inj hmget
      subst hmcc
      have hFll : Fll = ∅ := TreeP_zero (hmcl ▸ hmL)
      have hFlr : Flr = ∅ := TreeP_zero (hmcr ▸ hmR)
      have hmlx : cellx.l ≠ x := fun hc => hnl (hc ▸ TreeP_root_mem hL hml)
      have hmlFr : cellx.l ∉ Fr := fun hc =>
        (Finset.disjoint_left.mp hdisj (TreeP_root_mem hL hml)) hc
      have hset : (insert x (Fl ∪ Fr)).erase cellx.l = insert x Fr := by
        subst hFl; subst hFll; subst hFlr
        ext y
        simp only [Finset.mem_erase, Finset.mem_insert, Finset.mem_union,
          Finset.union_empty, Finset.not_mem_empty, or_false]
        constructor
        · rintro ⟨hy, rfl | rfl | hy'⟩
          · exact Or.inl rfl
          · exact absurd rfl hy
          · exact Or.inr hy'
        · rintro (rfl | hy)
          · exact ⟨Ne.symm hmlx, Or.inl rfl⟩
          · exact ⟨fun hc => hmlFr (hc ▸ hy), Or.inr (Or.inr hy)⟩
      rw [hset]
      have hgetx : (fun y => if y = cellx.l then none
          else if y = x then some { cellx with l := 0 } else h y) x
          = some { cellx with l := 0 } := by
        simp [Ne.symm hmlx]
      have hrfr : TreeP (fun y => if y = cellx.l then none
          else if y = x then some { cellx with l := 0 } else h y) cellx.r x Fr := by
        refine TreeP_frame _ hR fun y hy => ?_
        have hy1 : y ≠ cellx.l := fun hc => hmlFr (hc ▸ hy)
        have hy2 : y ≠ x := fun hc => hnr (hc ▸ hy)
        simp [hy1, hy2]
      have hnode := TreeP.node x par { cellx with l := 0 } ∅ Fr hne hgetx hp
        (TreeP.leaf x) hrfr (Finset.not_mem_empty x) hnr
        (Finset.disjoint_empty_left Fr)
      simpa using hnode
    · rcases Finset.mem_union.mp hx' with hxl | hxr
      · -- the removed node lies in the left subtree
        have hxroot : x ≠ root := fun hc => hnl (hc ▸ hxl)
        obtain ⟨cx, hcx', hx0, hlc, _⟩ := TreeP_cell_mem hL hxl
        have hcxx : cellx = cx := by
          have h2 := hcx
          rw [hcx'] at h2
          exact (Option.some.inj h2).symm
        subst hcxx
        rcases hlc with hl0 | ⟨hmlFl, _⟩
        · exact absurd hl0 hml
        have hmlroot : cellx.l ≠ root := fun hc => hnl (hc ▸ hmlFl)
        have hmlFr : cellx.l ∉ Fr := fun hc =>
          (Finset.disjoint_left.mp hdisj hmlFl) hc
        have hxFr : x ∉ Fr := fun hc => (Finset.disjoint_left.mp hdisj hxl) hc
        have hset : (insert root (Fl ∪ Fr)).erase cellx.l
            = insert root ((Fl.erase cellx.l) ∪ Fr) := by
          ext y
          simp only [Finset.mem_erase, Finset.mem_insert, Finset.mem_union]
          constructor
          · rintro ⟨hy, rfl | hy' | hy'⟩
            · exact Or.inl rfl
            · exact Or.inr (Or.inl ⟨hy, hy'⟩)
            · exact Or.inr (Or.inr hy')
          · rintro (rfl | ⟨hy, hy'⟩ | hy)
            · exact ⟨Ne.symm hmlroot, Or.inl rfl⟩
            · exact ⟨hy, Or.inr (Or.inl hy')⟩
            · exact ⟨fun hc => hmlFr (hc ▸ hy), Or.inr (Or.inr hy)⟩
        rw [hset]
        refine TreeP.node root par cell (Fl.erase cellx.l) Fr hne ?_ hp
          (ihL hxl hcx hml hmc hmcl hmcr) ?_
          (fun hc => hnl (Finset.erase_subset _ _ hc)) hnr
          (Finset.disjoint_of_subset_left (Finset.erase_subset _ _) hdisj)
        · simp [Ne.symm hmlroot, Ne.symm hxroot, hget]
        · refine TreeP_frame _ hR fun y hy => ?_
          have hy1 : y ≠ cellx.l := fun hc => hmlFr (hc ▸ hy)
          have hy2 : y ≠ x := fun hc => hxFr (hc ▸ hy)
          simp [hy1, hy2]
      · -- the removed node lies in the right subtree
        have hxroot : x ≠ root := fun hc => hnr (hc ▸ hxr)
        obtain ⟨cx, hcx', hx0, hlc, _⟩ := TreeP_cell_mem hR hxr
        have hcxx : cellx = cx := by
          have h2 := hcx
          rw [hcx'] at h2
          exact (Option.some.inj h2).symm
        subst hcxx
        rcases hlc with hl0 | ⟨hmlFr', _⟩
        · exact absurd hl0 hml
        have hmlroot : cellx.l ≠ root := fun hc => hnr (hc ▸ hmlFr')
        have hmlFl : cellx.l ∉ Fl := fun hc =>
          (Finset.disjoint_right.mp hdisj hmlFr') hc
        have hxFl : x ∉ Fl := fun hc => (Finset.disjoint_right.mp hdisj hxr) hc
        have hset : (insert root (Fl ∪ Fr)).erase cellx.l
            = insert root (Fl ∪ (Fr.erase cellx.l)) := by
          ext y
          simp only [Finset.mem_erase, Finset.mem_insert, Finset.mem_union]
          constructor
          · rintro ⟨hy, rfl | hy' | hy'⟩
            · exact Or.inl rfl
            · exact Or.inr (Or.inl hy')
            · exact Or.inr (Or.inr ⟨hy, hy'⟩)
          · rintro (rfl | hy | ⟨hy, hy'⟩)
            · exact ⟨Ne.symm hmlroot, Or.inl rfl⟩
            · exact ⟨fun hc => hmlFl (hc ▸ hy), Or.inr (Or.inl hy)⟩
            · exact ⟨hy, Or.inr (Or.inr hy')⟩
        rw [hset]
        refine TreeP.node root par cell Fl (Fr.erase cellx.l) hne ?_ hp ?_
          (ihR hxr hcx hml hmc hmcl hmcr) hnl
          (fun hc => hnr (Finset.erase_subset _ _ hc))
          (Finset.disjoint_of_subset_right (Finset.erase_subset _ _) hdisj)
        · simp [Ne.symm hmlroot, Ne.symm hxroot, hget]
        · refine TreeP_frame _ hL fun y hy => ?_
          have hy1 : y ≠ cellx.l := fun hc => hmlFl (hc ▸ hy)
          have hy2 : y ≠ x := fun hc => hxFl (hc ▸ hy)
          simp [hy1, hy2]

/-- Nulling the `r` field of a node whose right child is a leaf (both child
fields null) and deleting that leaf yields a summary on the footprint minus
the leaf. -/
theorem TreeP_remove_right {h : THeap} {root par : Nat} {F : Finset Nat}
    {x : Nat} {cellx mc : Etree} (hT : TreeP h root par F) :
    x ∈ F → h x = some cellx → cellx.r ≠ 0 → h cellx.r = some mc →
    mc.l = 0 → mc.r = 0 →
    TreeP (fun y => if y = cellx.r then none
                    else if y = x then some { cellx with r := 0 } else h y)
      root par (F.erase cellx.r) := by
  induction hT with
  | leaf par => intro hx _ _ _ _ _; exact absurd hx (Finset.not_mem_empty x)
  | node root par cell Fl Fr hne hget hp hL hR hnl hnr hdisj ihL ihR =>
    intro hx hcx hmr hmc hmcl hmcr
    rcases Finset.mem_insert.mp hx with rfl | hx'
    · -- the node whose right child is removed is the root itself
      have hcc : cellx = cell := Option.some.inj (hcx ▸ hget)
      subst hcc
      obtain ⟨mcell, Frl, Frr, hmget, hmp, hmL, hmR, hml1, hmr1, hd1, hFr⟩ :=
        TreeP_node_inv hR hmr
      have hmcc : mc = mcell := by
        rw [hmc] at hmget; exact Option.some.inj hmget
      subst hmcc
      have hFrl : Frl = ∅ := TreeP_zero (hmcl ▸ hmL)
      have hFrr : Frr = ∅ := TreeP_zero (hmcr ▸ hmR)
      have hmrx : cellx.r ≠ x := fun hc => hnr (hc ▸ TreeP_root_mem hR hmr)
      have hmrFl : cellx.r ∉ Fl := fun hc =>
        (Finset.disjoint_right.mp hdisj (TreeP_root_mem hR hmr)) hc
      have hset : (insert x (Fl ∪ Fr)).erase cellx.r = insert x Fl := by
        subst hFr; subst hFrl; subst hFrr
        ext y
        simp only [Finset.mem_erase, Finset.mem_insert, Finset.mem_union,
          Finset.union_empty, Finset.not_mem_empty, or_false]
        constructor
        · rintro ⟨hy, rfl | hy' | rfl⟩
          · exact Or.inl rfl
          · exact Or.inr hy'
          · exact absurd rfl hy
        · rintro (rfl | hy)
          · exact ⟨Ne.symm hmrx, Or.inl rfl⟩
          · exact ⟨fun hc => hmrFl (hc ▸ hy), Or.inr (Or.inl hy)⟩
      rw [hset]
      have hgetx : (fun y => if y = cellx.r then none
          else if y = x then some { cellx with r := 0 } else h y) x
          = some { cellx with r := 0 } := by
        simp [Ne.symm hmrx]
      have hlfl : TreeP (fun y => if y = cellx.r then none
          else if y = x then some { cellx with r := 0 } else h y) cellx.l x Fl := by
        refine TreeP_frame _ hL fun y hy => ?_
        have hy1 : y ≠ cellx.r := fun hc => hmrFl (hc ▸ hy)
        have hy2 : y ≠ x := fun hc => hnl (hc ▸ hy)
        simp [hy1, hy2]
      have hnode := TreeP.node x par { cellx with r := 0 } Fl ∅ hne hgetx hp
        hlfl (TreeP.leaf x) hnl (Finset.not_mem_empty x)
        (Finset.disjoint_empty_right Fl)
      simpa using hnode
    · rcases Finset.mem_union.mp hx' with hxl | hxr
      · -- the removed node lies in the left subtree
        have hxroot : x ≠ root := fun hc => hnl (hc ▸ hxl)
        obtain ⟨cx, hcx', hx0, _, hrc⟩ := TreeP_cell_mem hL hxl
        have hcxx : cellx = cx := by
          have h2 := hcx
          rw [hcx'] at h2
          exact (Option.some.inj h2).symm
        subst hcxx
        rcases hrc with hr0 | ⟨hmrFl, _⟩
        · exact absurd hr0 hmr
        have hmrroot : cellx.r ≠ root := fun hc => hnl (hc ▸ hmrFl)
        have hmrFr : cellx.r ∉ Fr := fun hc =>
          (Finset.disjoint_left.mp hdisj hmrFl) hc
        have hxFr : x ∉ Fr := fun hc => (Finset.disjoint_left.mp hdisj hxl) hc
        have hset : (insert root (Fl ∪ Fr)).erase cellx.r
            = insert root ((Fl.erase cellx.r) ∪ Fr) := by
          ext y
          simp only [Finset.mem_erase, Finset.mem_insert, Finset.mem_union]
          constructor
          · rintro ⟨hy, rfl | hy' | hy'⟩
            · exact Or.inl rfl
            · exact Or.inr (Or.inl ⟨hy, hy'⟩)
            · exact Or.inr (Or.inr hy')
          · rintro (rfl | ⟨hy, hy'⟩ | hy)
            · exact ⟨Ne.symm hmrroot, Or.inl rfl⟩
            · exact ⟨hy, Or.inr (Or.inl hy')⟩
            · exact ⟨fun hc => hmrFr (hc ▸ hy), Or.inr (Or.inr hy)⟩
        rw [hset]
        refine TreeP.node root par cell (Fl.erase cellx.r) Fr hne ?_ hp
          (ihL hxl hcx hmr hmc hmcl hmcr) ?_
          (fun hc => hnl (Finset.erase_subset _ _ hc)) hnr
          (Finset.disjoint_of_subset_left (Finset.erase_subset _ _) hdisj)
        · simp [Ne.symm hmrroot, Ne.symm hxroot, hget]
        · refine TreeP_frame _ hR fun y hy => ?_
          have hy1 : y ≠ cellx.r := fun hc => hmrFr (hc ▸ hy)
          have hy2 : y ≠ x := fun hc => hxFr (hc ▸ hy)
          simp [hy1, hy2]
      · -- the removed node lies in the right subtree
        have hxroot : x ≠ root := fun hc => hnr (hc ▸ hxr)
        obtain ⟨cx, hcx', hx0, _, hrc⟩ := TreeP_cell_mem hR hxr
        have hcxx : cellx = cx := by
          have h2 := hcx
          rw [hcx'] at h2
          exact (Option.some.inj h2).symm
        subst hcxx
        rcases hrc with hr0 | ⟨hmrFr', _⟩
        · exact absurd hr0 hmr
        have hmrroot : cellx.r ≠ root := fun hc => hnr (hc ▸ hmrFr')
        have hmrFl : cellx.r ∉ Fl := fun hc =>
          (Finset.disjoint_right.mp hdisj hmrFr') hc
        have hxFl : x ∉ Fl := fun hc => (Finset.disjoint_right.mp hdisj hxr) hc
        have hset : (insert root (Fl ∪ Fr)).erase cellx.r
            = insert root (Fl ∪ (Fr.erase cellx.r)) := by
          ext y
          simp only [Finset.mem_erase, Finset.mem_insert, Finset.mem_union]
          constructor
          · rintro ⟨hy, rfl | hy' | hy'⟩
            · exact Or.inl rfl
            · exact Or.inr (Or.inl hy')
            · exact Or.inr (Or.inr ⟨hy, hy'⟩)
          · rintro (rfl | hy | ⟨hy, hy'⟩)
            · exact ⟨Ne.symm hmrroot, Or.inl rfl⟩
            · exact ⟨fun hc => hmrFl (hc ▸ hy), Or.inr (Or.inl hy)⟩
            · exact ⟨hy, Or.inr (Or.inr hy')⟩
        rw [hset]
        refine TreeP.node root par cell Fl (Fr.erase cellx.r) hne ?_ hp ?_
          (ihR hxr hcx hmr hmc hmcl hmcr) hnl
          (fun hc => hnr (Finset.erase_subset _ _ hc))
          (Finset.disjoint_of_subset_right (Finset.erase_subset _ _) hdisj)
        · simp [Ne.symm hmrroot, Ne.symm hxroot, hget]
        · refine TreeP_frame _ hL fun y hy => ?_
          have hy1 : y ≠ cellx.r := fun hc => hmrFl (hc ▸ hy)
          have hy2 : y ≠ x := fun hc => hxFl (hc ▸ hy)
          simp [hy1, hy2]

/-- The loop invariant of the tree program: the heap carries a `bintreep_o`
summary for `t` with expected parent `p` on footprint `F`, the cursor is null
or inside the footprint, and every tombstoned location is removed from the
heap and lies outside the footprint. -/
def TreeInvF (t p : Nat) (s : TState) (F : Finset Nat) : Prop :=
  TreeP s.heap t p F ∧ (s.c = 0 ∨ s.c ∈ F) ∧
    ∀ x ∈ s.freed, s.heap x = none ∧ x ∉ F

/-- The loop invariant with the footprint existentially quantified. -/
def TreeInv (t p : Nat) (s : TState) : Prop := ∃ F, TreeInvF t p s F

/-- Branch `c = c->l` preserves the invariant and touches no heap cell. -/
theorem stepLeft_preserve {t p : Nat} {s : TState} {F : Finset Nat}
    (hI : TreeInvF t p s F) (hc : s.c ≠ 0) :
    ∃ s', stepLeft s = .ok s' ∧ TreeInvF t p s' F ∧
      s'.heap = s.heap ∧ s'.freed = s.freed := by
  obtain ⟨hT, hcF, hfreed⟩ := hI
  rcases hcF with hc0 | hcF
  · exact absurd hc0 hc
  obtain ⟨cellc, hget, hne0, hlc, hrc⟩ := TreeP_cell_mem hT hcF
  have hnf : s.c ∉ s.freed := fun hh => (hfreed _ hh).2 hcF
  have hread : readT s s.c = .ok cellc := by simp [readT, hc, hnf, hget]
  refine ⟨{ s with c := cellc.l },
    by simp [stepLeft, hread, exceptBind_ok, exceptPure], ⟨hT, ?_, hfreed⟩, rfl, rfl⟩
  rcases hlc with hl0 | ⟨hlF, _⟩
  · exact Or.inl hl0
  · exact Or.inr hlF

/-- Branch `c = c->r` preserves the invariant and touches no heap cell. -/
theorem stepRight_preserve {t p : Nat} {s : TState} {F : Finset Nat}
    (hI : TreeInvF t p s F) (hc : s.c ≠ 0) :
    ∃ s', stepRight s = .ok s' ∧ TreeInvF t p s' F ∧
      s'.heap = s.heap ∧ s'.freed = s.freed := by
  obtain ⟨hT, hcF, hfreed⟩ := hI
  rcases hcF with hc0 | hcF
  · exact absurd hc0 hc
  obtain ⟨cellc, hget, hne0, hlc, hrc⟩ := TreeP_cell_mem hT hcF
  have hnf : s.c ∉ s.freed := fun hh => (hfreed _ hh).2 hcF
  have hread : readT s s.c = .ok cellc := by simp [readT, hc, hnf, hget]
  refine ⟨{ s with c := cellc.r },
    by simp [stepRight, hread, exceptBind_ok, exceptPure], ⟨hT, ?_, hfreed⟩, rfl, rfl⟩
  rcases hrc with hr0 | ⟨hrF, _⟩
  · exact Or.inl hr0
  · exact Or.inr hrF

/-- The left-removal branch succeeds from any invariant state and preserves
the invariant (on the original footprint or on the footprint minus the freed
leaf). -/
theorem removeLeft_preserve {t p : Nat} {s : TState} {F : Finset Nat}
    (hI : TreeInvF t p s F) (hc : s.c ≠ 0) :
    ∃ s' F', removeLeft s = .ok s' ∧ TreeInvF t p s' F' ∧ F' ⊆ F := by
  obtain ⟨hT, hcF, hfreed⟩ := hI
  rcases hcF with hc0 | hcF
  · exact absurd hc0 hc
  obtain ⟨cellc, hget, hne0, hlc, hrc⟩ := TreeP_cell_mem hT hcF
  have hnf : s.c ∉ s.freed := fun hh => (hfreed _ hh).2 hcF
  have hread : readT s s.c = .ok cellc := by simp [readT, hc, hnf, hget]
  by_cases hl0 : cellc.l = 0
  · refine ⟨s, F, ?_, ⟨hT, Or.inr hcF, hfreed⟩, Finset.Subset.refl F⟩
    simp [removeLeft, hread, hl0, exceptBind_ok, exceptPure]
  rcases hlc with hl0' | ⟨hlF, hlnec⟩
  · exact absurd hl0' hl0
  have hnfl : cellc.l ∉ s.freed := fun hh => (hfreed _ hh).2 hlF
  obtain ⟨mc, hmget, hmne, _, _⟩ := TreeP_cell_mem hT hlF
  have hreadm : readT s cellc.l = .ok mc := by simp [readT, hl0, hnfl, hmget]
  by_cases hleaf : mc.l = 0 ∧ mc.r = 0
  · -- the leaf is removed: `m = c->l; c->l = null; free(m);`
    have hreadm2 :
        readT { heap := fun y => if y = s.c then some { cellc with l := 0 } else s.heap y,
                freed := s.freed, c := s.c } cellc.l = .ok mc := by
      simp [readT, hl0, hnfl, hlnec, hmget]
    refine ⟨{ heap := fun y => if y = cellc.l then none
                        else if y = s.c then some { cellc with l := 0 } else s.heap y,
              freed := cellc.l :: s.freed, c := s.c },
      F.erase cellc.l, ?_, ?_, Finset.erase_subset _ _⟩
    · simp only [removeLeft, hread, hreadm, hreadm2, exceptBind_ok, exceptPure]
      simp [hl0, hleaf]
    · refine ⟨TreeP_remove_left hT hcF hget hl0 hmget hleaf.1 hleaf.2, ?_, ?_⟩
      · exact Or.inr (Finset.mem_erase.mpr ⟨Ne.symm hlnec, hcF⟩)
      · intro x hx
        rcases List.mem_cons.mp hx with rfl | hx'
        · exact ⟨by simp, Finset.not_mem_erase _ _⟩
        · have hxne1 : x ≠ cellc.l := fun hh => (hfreed x hx').2 (hh ▸ hlF)
          have hxne2 : x ≠ s.c := fun hh => (hfreed x hx').2 (hh ▸ hcF)
          refine ⟨by simp [hxne1, hxne2, (hfreed x hx').1], ?_⟩
          exact fun hh => (hfreed x hx').2 (Finset.erase_subset _ _ hh)
  · refine ⟨s, F, ?_, ⟨hT, Or.inr hcF, hfreed⟩, Finset.Subset.refl F⟩
    simp [removeLeft, hread, hl0, hreadm, hleaf, exceptBind_ok, exceptPure]

/-- The right-removal branch succeeds from any invariant state and preserves
the invariant. -/
theorem removeRight_preserve {t p : Nat} {s : TState} {F : Finset Nat}
    (hI : TreeInvF t p s F) (hc : s.c ≠ 0) :
    ∃ s' F', removeRight s = .ok s' ∧ TreeInvF t p s' F' ∧ F' ⊆ F := by
  obtain ⟨hT, hcF, hfreed⟩ := hI
  rcases hcF with hc0 | hcF
  · exact absurd hc0 hc
  obtain ⟨cellc, hget, hne0, hlc, hrc⟩ := TreeP_cell_mem hT hcF
  have hnf : s.c ∉ s.freed := fun hh => (hfreed _ hh).2 hcF
  have hread : readT s s.c = .ok cellc := by simp [readT, hc, hnf, hget]
  by_cases hr0 : cellc.r = 0
  · refine ⟨s, F, ?_, ⟨hT, Or.inr hcF, hfreed⟩, Finset.Subset.refl F⟩
    simp [removeRight, hread, hr0, exceptBind_ok, exceptPure]
  rcases hrc with hr0' | ⟨hrF, hrnec⟩
  · exact absurd hr0' hr0
  have hnfr : cellc.r ∉ s.freed := fun hh => (hfreed _ hh).2 hrF
  obtain ⟨mc, hmget, hmne, _, _⟩ := TreeP_cell_mem hT hrF
  have hreadm : readT s cellc.r = .ok mc := by simp [readT, hr0, hnfr, hmget]
  by_cases hleaf : mc.l = 0 ∧ mc.r = 0
  · have hreadm2 :
        readT { heap := fun y => if y = s.c then some { cellc with r := 0 } else s.heap y,
                freed := s.freed, c := s.c } cellc.r = .ok mc := by
      simp [readT, hr0, hnfr, hrnec, hmget]
    refine ⟨{ heap := fun y => if y = cellc.r then none
                        else if y = s.c then some { cellc with r := 0 } else s.heap y,
              freed := cellc.r :: s.freed, c := s.c },
      F.erase cellc.r, ?_, ?_, Finset.erase_subset _ _⟩
    · simp only [removeRight, hread, hreadm, hreadm2, exceptBind_ok, exceptPure]
      simp [hr0, hleaf]
    · refine ⟨TreeP_remove_right hT hcF hget hr0 hmget hleaf.1 hleaf.2, ?_, ?_⟩
      · exact Or.inr (Finset.mem_erase.mpr ⟨Ne.symm hrnec, hcF⟩)
      · intro x hx
        rcases List.mem_cons.mp hx with rfl | hx'
        · exact ⟨by simp, Finset.not_mem_erase _ _⟩
        · have hxne1 : x ≠ cellc.r := fun hh => (hfreed x hx').2 (hh ▸ hrF)
          have hxne2 : x ≠ s.c := fun hh => (hfreed x hx').2 (hh ▸ hcF)
          refine ⟨by simp [hxne1, hxne2, (hfreed x hx').1], ?_⟩
          exact fun hh => (hfreed x hx').2 (Finset.erase_subset _ _ hh)
  · refine ⟨s, F, ?_, ⟨hT, Or.inr hcF, hfreed⟩, Finset.Subset.refl F⟩
    simp [removeRight, hread, hr0, hreadm, hleaf, exceptBind_ok, exceptPure]

/-- Any loop-body fork from an invariant state with non-null cursor succeeds
and preserves the invariant. -/
theorem TreeBody_preserve {t p : Nat} {s : TState} (hI : TreeInv t p s)
    (hc : s.c ≠ 0) {r : Except MemErr TState} (hb : TreeBody s r) :
    ∃ s', r = .ok s' ∧ TreeInv t p s' := by
  obtain ⟨F, hIF⟩ := hI
  cases hb with
  | left =>
    obtain ⟨s', hok, hI', _, _⟩ := stepLeft_preserve hIF hc
    exact ⟨s', hok, F, hI'⟩
  | right =>
    obtain ⟨s', hok, hI', _, _⟩ := stepRight_preserve hIF hc
    exact ⟨s', hok, F, hI'⟩
  | removeL =>
    obtain ⟨s', F', hok, hI', _⟩ := removeLeft_preserve hIF hc
    exact ⟨s', hok, F', hI'⟩
  | removeR =>
    obtain ⟨s', F', hok, hI', _⟩ := removeRight_preserve hIF hc
    exact ⟨s', hok, F', hI'⟩

/-- The invariant holds at the end of every terminating run. -/
theorem TreeRun_preserve {t p : Nat} {s s' : TState} (hrun : TreeRun s s')
    (hI : TreeInv t p s) : TreeInv t p s' := by
  induction hrun with
  | done s => exact hI
  | step s s1 s2 hc hb _ ih =>
    obtain ⟨s1', hok, hI'⟩ := TreeBody_preserve hI hc hb
    cases hok
    exact ih hI'

/-- No run from an invariant state raises a memory error. -/
theorem TreeRunErr_not {t p : Nat} {s : TState} {e : MemErr}
    (herr : TreeRunErr s e) (hI : TreeInv t p s) : False := by
  induction herr with
  | here s e hc hb =>
    obtain ⟨s', hok, _⟩ := TreeBody_preserve hI hc hb
    simp at hok
  | step s s1 e hc hb _ ih =>
    obtain ⟨s1', hok, hI'⟩ := TreeBody_preserve hI hc hb
    cases hok
    exact ih hI'

/-- `readT` reports `NullDerefError` only when the address is null. -/
theorem readT_error_null {s : TState} {x : Nat} (hx : x ≠ 0) {e : MemErr}
    (h : readT s x = .error e) : e ≠ .nullDeref := by
  rw [readT, if_neg hx] at h
  by_cases hf : x ∈ s.freed
  · rw [if_pos hf] at h
    cases h
    decide
  · rw [if_neg hf] at h
    cases hh : s.heap x with
    | some c => rw [hh] at h; cases h
    | none => rw [hh] at h; cases h; decide

/-- Mapping a function over a read at a non-null address never produces
`NullDerefError`. -/
theorem fmapReadT_null {β : Type} (f : Etree → β) (s' : TState) (x : Nat)
    (hx : x ≠ 0) : (f <$> readT s' x) ≠ .error .nullDeref := by
  cases hr : readT s' x with
  | error e =>
    simp only [Except.map_error]
    intro h
    exact absurd (Except.error.inj h) (readT_error_null hx hr)
  | ok a => simp

/-- The descend-left branch never raises `NullDerefError` when the cursor is
non-null. -/
theorem stepLeft_null (s : TState) (hc : s.c ≠ 0) :
    stepLeft s ≠ .error .nullDeref := by
  simp only [stepLeft]
  cases hr : readT s s.c with
  | error e =>
    rw [exceptBind_error]
    intro h
    exact absurd (Except.error.inj h) (readT_error_null hc hr)
  | ok cell => rw [exceptBind_ok]; simp [exceptPure]

/-- The descend-right branch never raises `NullDerefError` when the cursor is
non-null. -/
theorem stepRight_null (s : TState) (hc : s.c ≠ 0) :
    stepRight s ≠ .error .nullDeref := by
  simp only [stepRight]
  cases hr : readT s s.c with
  | error e =>
    rw [exceptBind_error]
    intro h
    exact absurd (Except.error.inj h) (readT_error_null hc hr)
  | ok cell => rw [exceptBind_ok]; simp [exceptPure]

/-- The left-removal branch never raises `NullDerefError` when the cursor is
non-null: `c->l` is dereferenced only under the guard `c->l != null`, and the
freed location is that same non-null `c->l`. -/
theorem removeLeft_null (s : TState) (hc : s.c ≠ 0) :
    removeLeft s ≠ .error .nullDeref := by
  simp only [removeLeft]
  cases hr : readT s s.c with
  | error e =>
    rw [exceptBind_error]
    intro h
    exact absurd (Except.error.inj h) (readT_error_null hc hr)
  | ok cell =>
    rw [exceptBind_ok]
    by_cases hl : cell.l = 0
    · simp [hl, exceptPure]
    · simp only [ne_eq, hl, not_false_eq_true, if_true]
      cases hr2 : readT s cell.l with
      | error e =>
        rw [exceptBind_error]
        intro h
        exact absurd (Except.error.inj h) (readT_error_null hl hr2)
      | ok lc =>
        rw [exceptBind_ok]
        by_cases hleaf : lc.l = 0 ∧ lc.r = 0
        · rw [if_pos hleaf]
          exact fmapReadT_null _ _ cell.l hl
        · simp [hleaf, exceptPure]

/-- The right-removal branch never raises `NullDerefError` when the cursor is
non-null. -/
theorem removeRight_null (s : TState) (hc : s.c ≠ 0) :
    removeRight s ≠ .error .nullDeref := by
  simp only [removeRight]
  cases hr : readT s s.c with
  | error e =>
    rw [exceptBind_error]
    intro h
    exact absurd (Except.error.inj h) (readT_error_null hc hr)
  | ok cell =>
    rw [exceptBind_ok]
    by_cases hl : cell.r = 0
    · simp [hl, exceptPure]
    · simp only [ne_eq, hl, not_false_eq_true, if_true]
      cases hr2 : readT s cell.r with
      | error e =>
        rw [exceptBind_error]
        intro h
        exact absurd (Except.error.inj h) (readT_error_null hl hr2)
      | ok rc =>
        rw [exceptBind_ok]
        by_cases hleaf : rc.l = 0 ∧ rc.r = 0
        · rw [if_pos hleaf]
          exact fmapReadT_null _ _ cell.r hl
        · simp [hleaf, exceptPure]

/-- Claim C9: in the tree leaf-removal program every heap dereference inside
the while body is null-guarded — `c` is dereferenced only under the loop
guard's `c != null`, and `c->l` (resp. `c->r`) only under `c->l != null`
(resp. `c->r != null`) — so no branch of the body ever raises
`NullDerefError`, from any state with a non-null cursor. -/
theorem C9_body_null_guarded (s : TState) (hc : s.c ≠ 0)
    {r : Except MemErr TState} (hb : TreeBody s r) :
    r ≠ .error .nullDeref := by
  cases hb with
  | left => exact stepLeft_null s hc
  | right => exact stepRight_null s hc
  | removeL => exact removeLeft_null s hc
  | removeR => exact removeRight_null s hc

/-- Witness for C9 at a concrete state: empty heap, cursor at location 1,
descend-left branch. -/
theorem C9_body_null_guarded_witness :
    stepLeft { heap := fun _ => none, freed := [], c := 1 } ≠
      .error .nullDeref :=
  C9_body_null_guarded { heap := fun _ => none, freed := [], c := 1 }
    (by decide) (TreeBody.left _)

/-- Claim C2: in the tree leaf-removal program, seeded by
`add_inductive( t, bintreep_o, [ p | | ] )`, every terminating run of the
loop ends in a state where the tree summary for `t` with parent `p` still
folds (`check_inductive( t, bintreep_o, [ p | | ] )` reports PASS) and every
freed location is tombstoned (removed from the heap) and outside the tree's
footprint; moreover no run raises any memory error, so no later statement on
any path dereferences a freed location. -/
theorem C2_leaf_removal (t p : Nat) (h0 : THeap) (F0 : Finset Nat)
    (hT : TreeP h0 t p F0) (s' : TState)
    (hrun : TreeRun { heap := h0, freed := [], c := t } s') :
    (∃ F', TreeP s'.heap t p F' ∧ ∀ x ∈ s'.freed, s'.heap x = none ∧ x ∉ F') ∧
      ∀ e, ¬ TreeRunErr { heap := h0, freed := [], c := t } e := by
  have hI : TreeInv t p { heap := h0, freed := [], c := t } := by
    refine ⟨F0, hT, ?_, by simp⟩
    by_cases ht0 : t = 0
    · exact Or.inl ht0
    · exact Or.inr (TreeP_root_mem hT ht0)
  obtain ⟨F', hT', hc', hfreed'⟩ := TreeRun_preserve hrun hI
  exact ⟨⟨F', hT', hfreed'⟩, fun e he => TreeRunErr_not he hI⟩

/-- Witness for C2 at a concrete input: a one-node tree at location 1 with
parent parameter 0, and the empty run. -/
theorem C2_leaf_removal_witness :
    (∃ F', TreeP (fun x => if x = 1 then some ⟨0, 0, 0, 0⟩ else none) 1 0 F' ∧
        ∀ x ∈ ([] : List Nat),
          (fun x => if x = 1 then some (⟨0, 0, 0, 0⟩ : Etree) else none) x = none ∧
            x ∉ F') ∧
      ∀ e, ¬ TreeRunErr
        { heap := fun x => if x = 1 then some ⟨0, 0, 0, 0⟩ else none,
          freed := [], c := 1 } e := by
  have hT : TreeP (fun x => if x = 1 then some (⟨0, 0, 0, 0⟩ : Etree) else none)
      1 0 (insert 1 (∅ ∪ ∅)) :=
    TreeP.node 1 0 ⟨0, 0, 0, 0⟩ ∅ ∅ (by decide) rfl rfl (TreeP.leaf 1)
      (TreeP.leaf 1) (Finset.not_mem_empty 1) (Finset.not_mem_empty 1)
      (Finset.disjoint_empty_left ∅)
  exact C2_leaf_removal 1 0 _ _ hT _ (TreeRun.done _)

/-! The graph traversal program (`graph-10.c`).

The program assumes (`add_inductive`) a `graphc` summary rooted at `l` with
set variables `F ⊆ E`, then traverses: from each node it walks the edge chain
a number of steps bounded by the uninitialized local `i`, and jumps to the
destination of the edge it stops at.  The loop only reads `k->edges`,
`g->next` and `g->dest`; it never writes any heap field. -/

/-- A cell of `struct edge { struct edge * next; struct node * dest; }`. -/
structure EdgeCell where
  next : Nat
  dest : Nat
deriving DecidableEq

/-- A cell of
`struct node { struct node * next; struct edge * edges; int data; }`. -/
structure NodeCell where
  next : Nat
  edges : Nat
  data : Int
deriving DecidableEq

/-- The node arena: nodes and edges are separately addressable domains (§9 of
the spec; the two C structures are distinct types). -/
def NHeap : Type := Nat → Option NodeCell

/-- The edge arena. -/
def EHeap : Type := Nat → Option EdgeCell

/-- Reading a node cell. -/
def readN (nh : NHeap) (x : Nat) : Except MemErr NodeCell :=
  if x = 0 then .error .nullDeref
  else
    match nh x with
    | some c => .ok c
    | none => .error .invalidDeref

/-- Reading an edge cell. -/
def readE (eh : EHeap) (x : Nat) : Except MemErr EdgeCell :=
  if x = 0 then .error .nullDeref
  else
    match eh x with
    | some c => .ok c
    | none => .error .invalidDeref

/-- `readE` reports `NullDerefError` only when the address is null. -/
theorem readE_error_null {eh : EHeap} {x : Nat} (hx : x ≠ 0) {e : MemErr}
    (h : readE eh x = .error e) : e ≠ .nullDeref := by
  rw [readE, if_neg hx] at h
  cases hh : eh x with
  | some c => rw [hh] at h; cases h
  | none => rw [hh] at h; cases h; decide

/-- The inner edge-walking loop of `graph-10.c` (lines 27–34):
`while (i > 0) { if (g->next == 0) { i = 0; } else { i = i - 1; g = g->next; } }`,
returning the final value of `g`.  The local `i` is read uninitialized, so the
initial value is an arbitrary `Int`. -/
def innerLoop (eh : EHeap) (i : Int) (g : Nat) : Except MemErr Nat :=
  if _h : 0 < i then
    match readE eh g with
    | .error e => .error e
    | .ok ec => if ec.next = 0 then .ok g else innerLoop eh (i - 1) ec.next
  else .ok g
termination_by i.toNat
decreasing_by omega

/-- One iteration of the inner loop as a step relation on `(i, g)`. -/
inductive InnerStep (eh : EHeap) : Int × Nat → Int × Nat → Prop
  | stop (i : Int) (g : Nat) (ec : EdgeCell) :
      0 < i → readE eh g = .ok ec → ec.next = 0 → InnerStep eh (i, g) (0, g)
  | advance (i : Int) (g : Nat) (ec : EdgeCell) :
      0 < i → readE eh g = .ok ec → ec.next ≠ 0 →
      InnerStep eh (i, g) (i - 1, ec.next)

/-- `n`-fold composition of the inner-loop step relation. -/
inductive InnerSteps (eh : EHeap) : Nat → Int × Nat → Int × Nat → Prop
  | refl (st : Int × Nat) : InnerSteps eh 0 st st
  | tail (n : Nat) (st st' st'' : Int × Nat) : InnerStep eh st st' →
      InnerSteps eh n st' st'' → InnerSteps eh (n + 1) st st''

/-- Each inner-loop iteration strictly decreases `max(i, 0)`. -/
theorem InnerStep_decrease {eh : EHeap} {st st' : Int × Nat}
    (h : InnerStep eh st st') : st'.1.toNat < st.1.toNat := by
  cases h with
  | stop i g ec hi _ _ => simpa using hi
  | advance i g ec hi _ _ => simp; omega

/-- The inner loop runs at most `max(i, 0)` iterations. -/
theorem InnerSteps_bound {eh : EHeap} {n : Nat} {st st' : Int × Nat}
    (h : InnerSteps eh n st st') : n ≤ st.1.toNat := by
  induction h with
  | refl st => exact Nat.zero_le _
  | tail n st st' st'' hstep _ ih =>
    have := InnerStep_decrease hstep
    omega

/-- The inner-loop step preserves non-nullness of `g`. -/
theorem InnerStep_g_ne_zero {eh : EHeap} {st st' : Int × Nat}
    (h : InnerStep eh st st') (hg : st.2 ≠ 0) : st'.2 ≠ 0 := by
  cases h with
  | stop i g ec _ _ _ => exact hg
  | advance i g ec _ _ hne => exact hne

/-- Chains of inner-loop steps preserve non-nullness of `g`. -/
theorem InnerSteps_g_ne_zero {eh : EHeap} {n : Nat} {st st' : Int × Nat}
    (h : InnerSteps eh n st st') (hg : st.2 ≠ 0) : st'.2 ≠ 0 := by
  induction h with
  | refl st => exact hg
  | tail n st st' st'' hstep _ ih => exact ih (InnerStep_g_ne_zero hstep hg)

/-- Bounded-fuel analysis of the inner loop: starting from non-null `g`, it
never raises `NullDerefError` and its result is non-null. -/
theorem innerLoop_safe_aux (eh : EHeap) :
    ∀ (n : Nat) (i : Int) (g : Nat), i.toNat ≤ n → g ≠ 0 →
      innerLoop eh i g ≠ .error .nullDeref ∧
        ∀ g', innerLoop eh i g = .ok g' → g' ≠ 0 := by
  intro n
  induction n with
  | zero =>
    intro i g hle hg
    rw [innerLoop, dif_neg (by omega)]
    exact ⟨by simp, fun g' hg' => (Except.ok.inj hg') ▸ hg⟩
  | succ n ih =>
    intro i g hle hg
    by_cases hpos : 0 < i
    · rw [innerLoop, dif_pos hpos]
      cases hre : readE eh g with
      | error e =>
        refine ⟨fun h => absurd (Except.error.inj h) (readE_error_null hg hre), ?_⟩
        intro g' hg'
        cases hg'
      | ok ec =>
        dsimp only
        by_cases hnext : ec.next = 0
        · rw [if_pos hnext]
          exact ⟨by simp, fun g' hg' => (Except.ok.inj hg') ▸ hg⟩
        · rw [if_neg hnext]
          exact ih (i - 1) ec.next (by omega) hnext
    · rw [innerLoop, dif_neg hpos]
      exact ⟨by simp, fun g' hg' => (Except.ok.inj hg') ▸ hg⟩

/-- Claim C10: in the graph traversal program the block-local `i` of the
inner edge-walking loop is read uninitialized, yet for every initial value of
`i` the loop terminates: each iteration either sets `i` to `0` (when
`g->next == 0`) or strictly decrements it, so any chain of iterations from
`(i, g)` has length at most `max(i, 0)`; and `g` is advanced only to a
non-null `g->next`, so starting from the non-null `g` of the outer guard the
walk keeps `g` non-null, never raises `NullDerefError`, and delivers a
non-null `g` to the dereference `g->dest` after the loop. -/
theorem C10_inner_loop (eh : EHeap) (n : Nat) (i : Int) (g : Nat)
    (st' : Int × Nat) (hsteps : InnerSteps eh n (i, g) st') (hg : g ≠ 0) :
    n ≤ i.toNat ∧ st'.2 ≠ 0 ∧
      (∀ i1 g1 st1, InnerStep eh (i1, g1) st1 → st1.1 = 0 ∨ st1.1 = i1 - 1) ∧
      innerLoop eh i g ≠ .error .nullDeref ∧
      ∀ g', innerLoop eh i g = .ok g' → g' ≠ 0 := by
  obtain ⟨h1, h2⟩ := innerLoop_safe_aux eh i.toNat i g (Nat.le_refl _) hg
  refine ⟨InnerSteps_bound hsteps, InnerSteps_g_ne_zero hsteps hg, ?_, h1, h2⟩
  intro i1 g1 st1 hstep
  cases hstep with
  | stop i g ec _ _ _ => exact Or.inl rfl
  | advance i g ec _ _ _ => exact Or.inr rfl

/-- Witness for C10 at a concrete input: a single edge cell at location 1
with null `next`, initial `i = 3`, one `stop` iteration. -/
theorem C10_inner_loop_witness :
    1 ≤ (3 : Int).toNat ∧ ((0 : Int), (1 : Nat)).2 ≠ 0 ∧
      (∀ i1 g1 st1,
        InnerStep (fun x => if x = 1 then some ⟨0, 1⟩ else none) (i1, g1) st1 →
          st1.1 = 0 ∨ st1.1 = i1 - 1) ∧
      innerLoop (fun x => if x = 1 then some ⟨0, 1⟩ else none) 3 1 ≠
        .error .nullDeref ∧
      ∀ g', innerLoop (fun x => if x = 1 then some ⟨0, 1⟩ else none) 3 1 = .ok g' →
        g' ≠ 0 :=
  C10_inner_loop (fun x => if x = 1 then some ⟨0, 1⟩ else none) 1 3 1 (0, 1)
    (InnerSteps.tail 0 (3, 1) (0, 1) (0, 1)
      (InnerStep.stop 3 1 ⟨0, 1⟩ (by decide) rfl rfl)
      (InnerSteps.refl (0, 1)))
    (by decide)

/-- State of the outer traversal loop: the two heap arenas and the cursor
`k`.  The root `l` is never written by the program, so it stays an outer
parameter. -/
structure GState where
  nh : NHeap
  eh : EHeap
  k : Nat

/-- One iteration of the outer loop (lines 22–36 of the source) for a given
value `i` of the uninitialized block-local:
`ledge g = k->edges; if (g == 0) { k = null; } else { int i; …inner loop…; k = g->dest; }`. -/
def graphBodyF (s : GState) (i : Int) : Except MemErr GState := do
  let nc ← readN s.nh s.k
  let g := nc.edges
  if g = 0 then
    return { s with k := 0 }
  else
    let g' ← innerLoop s.eh i g
    let ec ← readE s.eh g'
    return { s with k := ec.dest }

/-- One iteration of the outer loop: the uninitialized `i` is arbitrary. -/
inductive GraphBody : GState → Except MemErr GState → Prop
  | mk (s : GState) (i : Int) : GraphBody s (graphBodyF s i)

/-- Terminating runs of the outer loop `while (k != 0) { … }`. -/
inductive GraphRun : GState → GState → Prop
  | done (s : GState) : s.k = 0 → GraphRun s s
  | step (s s' s'' : GState) : s.k ≠ 0 → GraphBody s (.ok s') →
      GraphRun s' s'' → GraphRun s s''

/-- Modelled from the spec: the edge chain of a node in the `graphc`
predicate — a null-terminated `next` chain of edge cells belonging to the
edge set, with destinations in the node set. -/
inductive EdgeChain (eh : EHeap) (N E : Set Nat) : Nat → Prop
  | nil : EdgeChain eh N E 0
  | cons (x : Nat) (ec : EdgeCell) : x ≠ 0 → eh x = some ec → x ∈ E →
      ec.dest ∈ N → EdgeChain eh N E ec.next → EdgeChain eh N E x

/-- Modelled from the spec: the `graphc` inductive predicate (§4.2), with its
two set-variable parameters (node set and edge set): from the root, nodes are
chained by `next`, each carrying an edge chain over the shared edge arena. -/
inductive GraphC (nh : NHeap) (eh : EHeap) (N E : Set Nat) : Nat → Prop
  | nil : GraphC nh eh N E 0
  | cons (x : Nat) (nc : NodeCell) : x ≠ 0 → nh x = some nc → x ∈ N →
      EdgeChain eh N E nc.edges → GraphC nh eh N E nc.next → GraphC nh eh N E x

/-- Every loop-body result arises from `graphBodyF` at some value of the
uninitialized local. -/
theorem GraphBody_exists {s : GState} {r : Except MemErr GState}
    (hb : GraphBody s r) : ∃ i, r = graphBodyF s i := by
  cases hb with
  | mk i => exact ⟨i, rfl⟩

/-- A successful outer-loop iteration leaves both heap arenas untouched. -/
theorem graphBodyF_frame {s : GState} {i : Int} {s' : GState}
    (h : graphBodyF s i = .ok s') : s'.nh = s.nh ∧ s'.eh = s.eh := by
  rw [graphBodyF] at h
  cases hr : readN s.nh s.k with
  | error e => rw [hr, exceptBind_error] at h; cases h
  | ok nc =>
    rw [hr, exceptBind_ok] at h
    by_cases hg : nc.edges = 0
    · rw [if_pos hg] at h
      cases h
      exact ⟨rfl, rfl⟩
    · rw [if_neg hg] at h
      cases hil : innerLoop s.eh i nc.edges with
      | error e => rw [hil, exceptBind_error] at h; cases h
      | ok g' =>
        rw [hil, exceptBind_ok] at h
        cases hre : readE s.eh g' with
        | error e => rw [hre, exceptBind_error] at h; cases h
        | ok ec =>
          rw [hre, exceptBind_ok] at h
          cases h
          exact ⟨rfl, rfl⟩

/-- Claim C4: the traversal loop of `graph-10.c` performs no write to any
heap field — it only reads `k->edges`, `g->next` and `g->dest` — so every
terminating run leaves both arenas equal to their initial contents, and the
final `check_inductive( l, graphc, [ | | F, E] )` reports PASS whenever the
seeding `add_inductive` provided the `graphc` summary, the shape being
structurally unchanged. -/
theorem C4_graph_frame (s s' : GState) (hrun : GraphRun s s') :
    s'.nh = s.nh ∧ s'.eh = s.eh ∧
      ∀ (N E : Set Nat) (l : Nat), GraphC s.nh s.eh N E l →
        GraphC s'.nh s'.eh N E l := by
  induction hrun with
  | done s _ => exact ⟨rfl, rfl, fun N E l hg => hg⟩
  | step s s1 s2 hk hb _ ih =>
    obtain ⟨i, hi⟩ := GraphBody_exists hb
    obtain ⟨hnh, heh⟩ := graphBodyF_frame hi.symm
    refine ⟨ih.1.trans hnh, ih.2.1.trans heh, fun N E l hg => ?_⟩
    have hg1 : GraphC s1.nh s1.eh N E l := by rw [hnh, heh]; exact hg
    exact ih.2.2 N E l hg1

/-- Witness for C4 at a concrete input: the empty heaps with `k = 0` and the
immediately-terminating run. -/
theorem C4_graph_frame_witness :
    ({ nh := fun _ => none, eh := fun _ => none, k := 0 } : GState).nh
        = ({ nh := fun _ => none, eh := fun _ => none, k := 0 } : GState).nh ∧
      ({ nh := fun _ => none, eh := fun _ => none, k := 0 } : GState).eh
        = ({ nh := fun _ => none, eh := fun _ => none, k := 0 } : GState).eh ∧
      ∀ (N E : Set Nat) (l : Nat),
        GraphC (fun _ => none) (fun _ => none) N E l →
          GraphC (fun _ => none) (fun _ => none) N E l :=
  C4_graph_frame { nh := fun _ => none, eh := fun _ => none, k := 0 }
    { nh := fun _ => none, eh := fun _ => none, k := 0 }
    (GraphRun.done _ rfl)

/-! Syntactic inventory of the corpus (`claim C7`).

The three programs are embedded as abstract syntax trees, and the supported
statement set of §4.1 of the spec is modelled as a predicate on this syntax.
Variable, field and type names are enumerated to keep everything decidable. -/

/-- Variable names occurring in the corpus programs. -/
inductive VarN
  | vi | vt | vl | vk | vc | vp | vm | vg | vcond | vE | vF
deriving DecidableEq

/-- Field names occurring in the corpus structures. -/
inductive FieldN
  | fnext | fdata | fl | fr | fp | fdest | fedges
deriving DecidableEq

/-- Type names occurring in the corpus declarations. -/
inductive TyN
  | tyInt | tyElist | tyList | tyTree | tyLnode | tyLedge
deriving DecidableEq

/-- Pointer expressions occurring in corpus conditions: a variable, one field
dereference (`c->l`), or two (`c->l->l`). -/
inductive PExpr
  | var (x : VarN)
  | field1 (x : VarN) (f : FieldN)
  | field2 (x : VarN) (f g : FieldN)
deriving DecidableEq

/-- Conditions occurring in the corpus programs.  Comparisons of pointers
with the literal `0` (as in `k != 0`, `g == 0` of `graph-10.c`) are embedded
as null comparisons. -/
inductive CCond
  | eqNull (e : PExpr)
  | neNull (e : PExpr)
  | marker (x : VarN)
  | lt (x : VarN) (n : Int)
  | gt (x : VarN) (n : Int)
  | conj (a b : CCond)
deriving DecidableEq

/-- Statements occurring in the corpus programs.  Blocks are right-nested
`seq` chains; `_memcad` directive payloads are handled separately (claim C8),
so `directive` carries no argument here. -/
inductive CStmt
  | skip
  | seq (a b : CStmt)
  | decl (ty : TyN) (x : VarN)
  | declArr (ty : TyN) (x : VarN) (n : Nat)
  | declInitField (ty : TyN) (x y : VarN) (f : FieldN)
  | assignVar (x y : VarN)
  | assignNull (x : VarN)
  | assignNum (x : VarN) (n : Int)
  | assignAddrIndex (x arr idx : VarN)
  | assignArith (x y : VarN) (n : Int)
  | readField (x y : VarN) (f : FieldN)
  | writeFieldNull (x : VarN) (f : FieldN)
  | writeIndexFieldVar (arr idx : VarN) (f : FieldN) (y : VarN)
  | writeIndexFieldNum (arr idx : VarN) (f : FieldN) (n : Int)
  | free (x : VarN)
  | assertC (c : CCond)
  | directive
  | ifC (c : CCond) (a b : CStmt)
  | whileC (c : CCond) (a : CStmt)
deriving DecidableEq

/-- `main` of `former-submem-05.c` (lines 9–35). -/
def formerSubmem05 : CStmt :=
  .seq (.decl .tyInt .vi) <| .seq (.declArr .tyElist .vt 10) <|
  .seq (.decl .tyList .vl) <| .seq (.decl .tyList .vk) <|
  .seq (.assignNull .vl) <| .seq (.assignNum .vi 0) <|
  .seq (.whileC (.lt .vi 10) <|
    .seq (.writeIndexFieldVar .vt .vi .fnext .vl) <|
    .seq (.writeIndexFieldNum .vt .vi .fdata 0) <|
    .seq (.assignAddrIndex .vl .vt .vi) (.assignArith .vi .vi 1)) <|
  .seq (.assignVar .vk .vl) <| .seq .directive <|
  .seq (.ifC (.neNull (.var .vk))
    (.seq (.assertC (.neNull (.var .vk))) <|
     .seq (.readField .vi .vk .fdata) <| .seq (.readField .vk .vk .fnext) <|
     .seq .directive <|
     .ifC (.neNull (.var .vk))
       (.seq (.readField .vk .vk .fnext) .directive) .skip)
    .skip)
  .directive

/-- `main` of `tree-p-19.c` (lines 11–44), with the global
`volatile int cond` declaration in front. -/
def treeP19 : CStmt :=
  .seq (.decl .tyInt .vcond) <|
  .seq (.decl .tyTree .vt) <| .seq (.decl .tyTree .vc) <|
  .seq (.decl .tyTree .vp) <| .seq .directive <|
  .seq (.assignVar .vc .vt) <|
  .seq (.whileC (.conj (.marker .vcond) (.neNull (.var .vc))) <|
    .ifC (.marker .vcond) (.readField .vc .vc .fl) <|
    .ifC (.marker .vcond) (.readField .vc .vc .fr) <|
    .ifC (.marker .vcond)
      (.ifC (.neNull (.field1 .vc .fl))
        (.ifC (.conj (.eqNull (.field2 .vc .fl .fl)) (.eqNull (.field2 .vc .fl .fr)))
          (.seq (.decl .tyTree .vm) <|
           .seq (.readField .vm .vc .fl) <|
           .seq (.writeFieldNull .vc .fl) (.free .vm))
          .skip)
        .skip)
      (.ifC (.neNull (.field1 .vc .fr))
        (.ifC (.conj (.eqNull (.field2 .vc .fr .fl)) (.eqNull (.field2 .vc .fr .fr)))
          (.seq (.decl .tyTree .vm) <|
           .seq (.readField .vm .vc .fr) <|
           .seq (.writeFieldNull .vc .fr) (.free .vm))
          .skip)
        .skip))
  .directive

/-- `main` of `graph-10.c` (lines 14–39). -/
def graph10 : CStmt :=
  .seq (.decl .tyLnode .vl) <| .seq (.decl .tyLnode .vk) <|
  .seq .directive <| .seq .directive <| .seq .directive <|
  .seq (.assignVar .vk .vl) <|
  .seq (.whileC (.neNull (.var .vk)) <|
    .seq (.declInitField .tyLedge .vg .vk .fedges) <|
    .ifC (.eqNull (.var .vg)) (.assignNull .vk) <|
      .seq (.decl .tyInt .vi) <|
      .seq (.whileC (.gt .vi 0) <|
        .ifC (.eqNull (.field1 .vg .fnext)) (.assignNum .vi 0)
          (.seq (.assignArith .vi .vi (-1)) (.readField .vg .vg .fnext))) <|
      (.readField .vk .vg .fdest))
  .directive

/-- Modelled from the spec: membership in the condition grammar of §4.1
(the loader is not among the repository's source files).  A condition is
supported iff it is a comparison with null or a single nondeterministic
marker variable; integer comparisons and conjunctions are outside the
grammar.  Null comparisons of field paths are counted as supported, reading
the spec's `x != null` generously. -/
def condSupported : CCond → Bool
  | .eqNull _ => true
  | .neNull _ => true
  | .marker _ => true
  | .lt _ _ => false
  | .gt _ _ => false
  | .conj _ _ => false

/-- Modelled from the spec: membership in the supported statement set of
§4.1: `decl`, `x = y`, `x = null`, `x = alloc(type)`, `free(x)`, `y = x->f`,
`x->f = y`, `if`/`while` over supported conditions, and directives.  A
declaration with a field-read initializer is counted as supported (it
desugars to `decl` plus `y = x->f`); array declarations, indexed field
writes, address-of, integer-constant and arithmetic assignments, and
`assert` are not in the set. -/
def stmtSupported : CStmt → Bool
  | .skip => true
  | .seq a b => stmtSupported a && stmtSupported b
  | .decl _ _ => true
  | .declArr _ _ _ => false
  | .declInitField _ _ _ _ => true
  | .assignVar _ _ => true
  | .assignNull _ => true
  | .assignNum _ _ => false
  | .assignAddrIndex _ _ _ => false
  | .assignArith _ _ _ => false
  | .readField _ _ _ => true
  | .writeFieldNull _ _ => true
  | .writeIndexFieldVar _ _ _ _ => false
  | .writeIndexFieldNum _ _ _ _ => false
  | .free _ => true
  | .assertC _ => false
  | .directive => true
  | .ifC c a b => condSupported c && stmtSupported a && stmtSupported b
  | .whileC c a => condSupported c && stmtSupported a

/-- All conditions appearing in a statement, in program order. -/
def stmtConds : CStmt → List CCond
  | .seq a b => stmtConds a ++ stmtConds b
  | .ifC c a b => c :: (stmtConds a ++ stmtConds b)
  | .whileC c a => c :: stmtConds a
  | .assertC c => [c]
  | _ => []

/-- The unsupported constructs of a statement, in program order; an offending
`if`/`while` guard is reported as its head with empty bodies. -/
def unsupportedIn : CStmt → List CStmt
  | .seq a b => unsupportedIn a ++ unsupportedIn b
  | .ifC c a b =>
    (if condSupported c then [] else [.ifC c .skip .skip]) ++
      (unsupportedIn a ++ unsupportedIn b)
  | .whileC c a =>
    (if condSupported c then [] else [.whileC c .skip]) ++ unsupportedIn a
  | s => if stmtSupported s then [] else [s]

/-- Claim C7 counterexample: the guard `i < 10` of the construction loop of
`former-submem-05.c` is a condition of the corpus that is neither a
comparison with null nor a nondeterministic marker variable, so it lies
outside the §4.1 grammar and the program does not load cleanly under the
strict §4.1 contract — refuting the claim that every statement and condition
of the corpus belongs to the supported set. -/
theorem C7_counterexample :
    CCond.lt .vi 10 ∈ stmtConds formerSubmem05 ∧
      condSupported (CCond.lt .vi 10) = false ∧
      stmtSupported formerSubmem05 = false ∧
      stmtSupported treeP19 = false ∧
      stmtSupported graph10 = false := by
  decide

/-- Claim C7 as amended: not every statement and condition of the corpus
belongs to the §4.1 set.  The constructs outside it are exactly: in
`former-submem-05.c` the array declaration `elist t[10]`, the
integer-constant assignment `i = 0`, the guard `i < 10`, the indexed writes
`t[i].next = l` and `t[i].data = 0`, the address-of `l = &t[i]`, the
arithmetic `i = i + 1` and the `assert`; in `tree-p-19.c` the conjunction
guards `cond && c != null`, `c->l->l == null && c->l->r == null` and
`c->r->l == null && c->r->r == null`; in `graph-10.c` the guard `i > 0`, the
assignment `i = 0` and the arithmetic `i = i - 1`.  All remaining statements
and conditions are in the supported set. -/
theorem C7_amended :
    unsupportedIn formerSubmem05 =
      [.declArr .tyElist .vt 10, .assignNum .vi 0, .whileC (.lt .vi 10) .skip,
       .writeIndexFieldVar .vt .vi .fnext .vl,
       .writeIndexFieldNum .vt .vi .fdata 0, .assignAddrIndex .vl .vt .vi,
       .assignArith .vi .vi 1, .assertC (.neNull (.var .vk))] ∧
    unsupportedIn treeP19 =
      [.whileC (.conj (.marker .vcond) (.neNull (.var .vc))) .skip,
       .ifC (.conj (.eqNull (.field2 .vc .fl .fl)) (.eqNull (.field2 .vc .fl .fr)))
         .skip .skip,
       .ifC (.conj (.eqNull (.field2 .vc .fr .fl)) (.eqNull (.field2 .vc .fr .fr)))
         .skip .skip] ∧
    unsupportedIn graph10 =
      [.whileC (.gt .vi 0) .skip, .assignNum .vi 0,
       .assignArith .vi .vi (-1)] := by
  decide

/-! The `_memcad` directive grammar (claim C8).

The directive mini-language of §6 is modelled as a tokenizer and parser over
the literal strings of the corpus. -/

/-- Tokens of the directive mini-language. -/
inductive Tok
  | lpar | rpar | lbrk | rbrk | bar | comma
  | word (s : String)
  | bad
deriving DecidableEq

/-- Characters composing names in directives (`$` occurs in `$sub`). -/
def isWordChar (c : Char) : Bool :=
  c.isAlphanum || c = '_' || c = '$'

/-- Fuel-bounded tokenizer; with fuel at least the character count it
consumes the whole input.  Whitespace separates tokens and is otherwise
ignored (the corpus writes directives with varying spacing, e.g.
`set_assume ( F $sub E)`). -/
def tokenizeAux : Nat → List Char → List Tok
  | 0, _ => [.bad]
  | _ + 1, [] => []
  | n + 1, c :: cs =>
    if c = ' ' then tokenizeAux n cs
    else if c = '(' then .lpar :: tokenizeAux n cs
    else if c = ')' then .rpar :: tokenizeAux n cs
    else if c = '[' then .lbrk :: tokenizeAux n cs
    else if c = ']' then .rbrk :: tokenizeAux n cs
    else if c = '|' then .bar :: tokenizeAux n cs
    else if c = ',' then .comma :: tokenizeAux n cs
    else if isWordChar c then
      .word (String.mk (c :: cs.takeWhile isWordChar)) ::
        tokenizeAux n (cs.dropWhile isWordChar)
    else .bad :: tokenizeAux n cs

/-- Tokenize a directive string. -/
def tokenize (s : String) : List Tok := tokenizeAux s.data.length s.data

/-- The parsed bracketed parameter block of §6: pointer parameters, then the
node set-variable list, then the edge set-variable list. -/
structure ParamBlock where
  ptrParams : List String
  nodeVars : List String
  edgeVars : List String
deriving DecidableEq

/-- Parsed directives (§6). -/
inductive Directive
  | declSetvars (names : List String)
  | setAssume (a b : String)
  | addInductive (x pred : String) (blk : ParamBlock)
  | checkInductive (x pred : String) (blk : Option ParamBlock)
  | forceLive (names : List String)
deriving DecidableEq

/-- A non-empty comma-separated name list. -/
def parseNames : List Tok → Option (List String)
  | [.word w] => some [w]
  | .word w :: .comma :: rest => (parseNames rest).map (w :: ·)
  | _ => none

/-- A possibly-empty slot of the parameter block (an empty slot is legal and
denotes no constraint). -/
def parseSlot (ts : List Tok) : Option (List String) :=
  match ts with
  | [] => some []
  | _ => parseNames ts

/-- Split a token list at the `|` separators. -/
def splitBar : List Tok → List (List Tok)
  | [] => [[]]
  | .bar :: rest => [] :: splitBar rest
  | t :: rest =>
    match splitBar rest with
    | [] => [[t]]
    | g :: gs => (t :: g) :: gs

/-- Parse `[ slot | slot | slot ]`: exactly three `|`-separated slots. -/
def parseBlock (ts : List Tok) : Option ParamBlock :=
  match ts with
  | .lbrk :: rest =>
    match rest.getLast? with
    | some .rbrk =>
      match splitBar rest.dropLast with
      | [s1, s2, s3] =>
        match parseSlot s1, parseSlot s2, parseSlot s3 with
        | some p, some nv, some ev => some ⟨p, nv, ev⟩
        | _, _, _ => none
      | _ => none
    | _ => none
  | _ => none

/-- Modelled from the spec: the directive grammar of §6 (the loader is not
among the repository's source files).  Returns the parsed directive, or
`none` when the string does not conform; `check_inductive`'s bracketed block
is optional, `add_inductive`'s is required. -/
def parseDirective (s : String) : Option Directive :=
  match tokenize s with
  | .word kw :: .lpar :: rest =>
    match rest.getLast? with
    | some .rpar =>
      let args := rest.dropLast
      if kw = "decl_setvars" then (parseNames args).map .declSetvars
      else if kw = "set_assume" then
        match args with
        | [.word a, .word m, .word b] =>
          if m = "$sub" then some (.setAssume a b) else none
        | _ => none
      else if kw = "force_live" then (parseNames args).map .forceLive
      else if kw = "add_inductive" then
        match args with
        | .word v :: .comma :: .word pr :: .comma :: blk =>
          (parseBlock blk).map (.addInductive v pr)
        | _ => none
      else if kw = "check_inductive" then
        match args with
        | [.word v, .comma, .word pr] => some (.checkInductive v pr none)
        | .word v :: .comma :: .word pr :: .comma :: blk =>
          (parseBlock blk).map (fun b => .checkInductive v pr (some b))
        | _ => none
      else none
    | _ => none
  | _ => none

/-- The ten `_memcad` directive strings of the corpus, verbatim and in file
order: `former-submem-05.c`, then `tree-p-19.c`, then `graph-10.c`. -/
def corpusDirectives : List String :=
  ["check_inductive( l, list )",
   "check_inductive( k, list )",
   "check_inductive( k, list )",
   "force_live( l, t, i)",
   "add_inductive( t, bintreep_o, [ p | | ] )",
   "check_inductive( t, bintreep_o, [ p | | ] )",
   "decl_setvars( E, F )",
   "set_assume ( F $sub E)",
   "add_inductive( l, graphc, [ | | F, E] )",
   "check_inductive( l, graphc, [ | | F, E] )"]

/-- Claim C8: every `_memcad` directive string in the corpus conforms to the
directive grammar of §6; `check_inductive`'s bracketed block is optional (as
in `check_inductive( l, list )`), and when present it has exactly three
`|`-separated slots with empty slots legal: `[ p | | ]` binds `p` as a
pointer parameter, and `[ | | F, E]` binds the set variables `F` and `E` of
the `graphc` predicate in the set-variable slots. -/
theorem C8_directive_grammar :
    (corpusDirectives.all fun d => (parseDirective d).isSome) = true ∧
      parseDirective "check_inductive( l, list )"
        = some (.checkInductive "l" "list" none) ∧
      parseDirective "check_inductive( t, bintreep_o, [ p | | ] )"
        = some (.checkInductive "t" "bintreep_o" (some ⟨["p"], [], []⟩)) ∧
      parseDirective "add_inductive( l, graphc, [ | | F, E] )"
        = some (.addInductive "l" "graphc" ⟨[], [], ["F", "E"]⟩) := by
  decide

/-! The symbolic heap and the unfold/fold engine (claims C5 and C6).

Modelled from the spec (§3, §4.2, §4.3): the analyzer is not among the
repository's source files, so the symbolic heap, the predicate catalog's
unfold rules and the fold search are modelled from the specification's words.
Symbolic values and set variables are numbered; value `0` is null. -/

/-- The predicate catalog required by the corpus (§4.2). -/
inductive PredName
  | list
  | bintreep_o
  | graphc
deriving DecidableEq

/-- A spatial fact (§3): the points-to edges of one fully explicit cell, or a
predicate summary with its pointer parameters and set-variable parameters. -/
inductive Fact
  | pts (root : Nat) (fields : List (FieldN × Nat))
  | summ (pred : PredName) (root : Nat) (params : List Nat) (sets : List Nat)
deriving DecidableEq

/-- The root location covered by a spatial fact. -/
def Fact.root : Fact → Nat
  | .pts r _ => r
  | .summ _ r _ _ => r

/-- A symbolic heap (§3): the spatial facts plus the set-variable constraint
store; a pair `(a, b)` records the subset constraint `a ⊆ b`. -/
structure SymHeap where
  facts : List Fact
  constraints : List (Nat × Nat)
deriving DecidableEq

/-- All symbolic identifiers mentioned by a fact. -/
def factIds : Fact → List Nat
  | .pts r fs => r :: fs.map Prod.snd
  | .summ _ r ps ss => r :: (ps ++ ss)

/-- All symbolic identifiers mentioned by a heap. -/
def heapIds (H : SymHeap) : List Nat :=
  H.facts.flatMap factIds ++ H.constraints.flatMap fun c => [c.1, c.2]

/-- A fresh symbolic identifier: one past the maximum mentioned. -/
def freshId (H : SymHeap) : Nat := (heapIds H).foldr max 0 + 1

/-- The first summary fact for `p` rooted at `x`, if any. -/
def findSumm : List Fact → PredName → Nat → Option (List Nat × List Nat)
  | [], _, _ => none
  | .summ p' r ps ss :: rest, p, x =>
    if p' = p ∧ r = x then some (ps, ss) else findSumm rest p x
  | .pts _ _ :: rest, p, x => findSumm rest p x

/-- The points-to edges of the explicit cell at `x`, if any. -/
def findPts : List Fact → Nat → Option (List (FieldN × Nat))
  | [], _ => none
  | .pts r fs :: rest, x => if r = x then some fs else findPts rest x
  | .summ _ _ _ _ :: rest, x => findPts rest x

/-- Field lookup in a points-to edge list. -/
def lookupField : List (FieldN × Nat) → FieldN → Option Nat
  | [], _ => none
  | (g, v) :: rest, f => if g = f then some v else lookupField rest f

/-- Modelled from the spec: `Unfold(loc, predicate)` (§4.3) — replace the
summary rooted at `loc` with the inductive case's explicit cell plus smaller
summaries on the successors (base case when `loc` is null: the summary
discharges to nothing).  Fresh symbolic values are drawn above every
identifier of the heap; for `graphc`, the residual summary gets fresh
restricted set variables recorded in the constraint store.  `none` models
`ShapeMismatchError` (no summary of that predicate at `loc`, or parameter
arity mismatch). -/
def unfoldAt (H : SymHeap) (x : Nat) (p : PredName) : Option SymHeap :=
  match findSumm H.facts p x with
  | none => none
  | some (ps, ss) =>
    let rest := H.facts.erase (.summ p x ps ss)
    if x = 0 then some { H with facts := rest }
    else
      let n := freshId H
      match p, ps, ss with
      | .list, [], [] =>
        let fs := Fact.pts x [(.fnext, n), (.fdata, n + 1)] ::
          Fact.summ .list n [] [] :: rest
        some { H with facts := fs }
      | .bintreep_o, [par], [] =>
        let fs := Fact.pts x [(.fl, n), (.fr, n + 1), (.fp, par), (.fdata, n + 2)] ::
          Fact.summ .bintreep_o n [x] [] :: Fact.summ .bintreep_o (n + 1) [x] [] :: rest
        some { H with facts := fs }
      | .graphc, [], [nv, ev] =>
        let fs := Fact.pts x [(.fnext, n), (.fedges, n + 1), (.fdata, n + 2)] ::
          Fact.summ .graphc n [] [n + 3, n + 4] :: rest
        some { facts := fs, constraints := (n + 3, nv) :: (n + 4, ev) :: H.constraints }
      | _, _, _ => none

/-- Modelled from the spec: one step of `Fold(loc, predicate, params)`
(§4.3) — match the explicit cell at `loc` against the predicate's inductive
case, requiring each successor to be null or covered by a summary of the same
predicate with compatible parameters (propagated back-pointer for
`bintreep_o`; declared subset constraints for `graphc`'s set variables), and
replace cell and residual summaries by one summary bound to `params`.  At a
null `loc` the empty chain folds outright (base case). -/
def foldOnceAt (H : SymHeap) (x : Nat) (p : PredName) (ps ss : List Nat) :
    Option SymHeap :=
  if x = 0 then some { H with facts := .summ p x ps ss :: H.facts }
  else
    match findPts H.facts x with
    | none => none
    | some flds =>
      match p, ps, ss with
      | .list, [], [] =>
        match lookupField flds .fnext, lookupField flds .fdata with
        | some a, some _ =>
          if a = 0 then
            let fs := Fact.summ .list x [] [] :: H.facts.erase (.pts x flds)
            some { H with facts := fs }
          else
            match findSumm H.facts .list a with
            | some ([], []) =>
              let fs := Fact.summ .list x [] [] ::
                ((H.facts.erase (.pts x flds)).erase (.summ .list a [] []))
              some { H with facts := fs }
            | _ => none
        | _, _ => none
      | .bintreep_o, [par], [] =>
        match lookupField flds .fl, lookupField flds .fr, lookupField flds .fp,
            lookupField flds .fdata with
        | some a, some b, some pv, some _ =>
          if pv = par then
            let afold : Option (List Fact) :=
              if a = 0 then some (H.facts.erase (.pts x flds))
              else
                match findSumm H.facts .bintreep_o a with
                | some (pls, sls) =>
                  if pls = [x] ∧ sls = [] then
                    some ((H.facts.erase (.pts x flds)).erase
                      (.summ .bintreep_o a [x] []))
                  else none
                | none => none
            match afold with
            | none => none
            | some rest1 =>
              if b = 0 then
                some { H with facts := Fact.summ .bintreep_o x [par] [] :: rest1 }
              else
                match findSumm H.facts .bintreep_o b with
                | some (pls, sls) =>
                  if pls = [x] ∧ sls = [] then
                    let fs := Fact.summ .bintreep_o x [par] [] ::
                      rest1.erase (.summ .bintreep_o b [x] [])
                    some { H with facts := fs }
                  else none
                | none => none
          else none
        | _, _, _, _ => none
      | .graphc, [], [nv, ev] =>
        match lookupField flds .fnext, lookupField flds .fedges,
            lookupField flds .fdata with
        | some a, some _, some _ =>
          if a = 0 then
            let fs := Fact.summ .graphc x [] [nv, ev] :: H.facts.erase (.pts x flds)
            some { H with facts := fs }
          else
            match findSumm H.facts .graphc a with
            | some (pls, sls) =>
              match pls, sls with
              | [], [nv', ev'] =>
                if (nv', nv) ∈ H.constraints ∧ (ev', ev) ∈ H.constraints then
                  let fs := Fact.summ .graphc x [] [nv, ev] ::
                    ((H.facts.erase (.pts x flds)).erase
                      (.summ .graphc a [] [nv', ev']))
                  some { H with facts := fs }
                else none
              | _, _ => none
            | none => none
        | _, _, _ => none
      | _, _, _ => none

/-- Modelled from the spec: the full `Fold(loc, predicate, params)` search
(§4.3) — try to match at `loc`; when the one-cell match fails because a
successor is still explicit, fold the successor chain first and retry.  The
fuel bounds the recursion by the number of explicit cells; each successful
one-cell fold consumes one `pts` fact, so heap size is always enough fuel. -/
def foldAt : Nat → SymHeap → Nat → PredName → List Nat → List Nat →
    Option SymHeap
  | 0, _, _, _, _, _ => none
  | fuel + 1, H, x, p, ps, ss =>
    match foldOnceAt H x p ps ss with
    | some H' => some H'
    | none =>
      if x = 0 then none
      else
        match findPts H.facts x with
        | none => none
        | some flds =>
          match p, ps, ss with
          | .list, [], [] =>
            match lookupField flds .fnext with
            | some a =>
              match foldAt fuel H a .list [] [] with
              | some H1 => foldOnceAt H1 x .list [] []
              | none => none
            | none => none
          | .bintreep_o, [par], [] =>
            match lookupField flds .fl, lookupField flds .fr with
            | some a, some b =>
              let step1 : Option SymHeap :=
                if a ≠ 0 ∧ (findPts H.facts a).isSome then
                  foldAt fuel H a .bintreep_o [x] []
                else some H
              match step1 with
              | none => none
              | some H1 =>
                let step2 : Option SymHeap :=
                  if b ≠ 0 ∧ (findPts H1.facts b).isSome then
                    foldAt fuel H1 b .bintreep_o [x] []
                  else some H1
                match step2 with
                | none => none
                | some H2 => foldOnceAt H2 x .bintreep_o [par] []
            | _, _ => none
          | .graphc, [], [nv, ev] =>
            match lookupField flds .fnext with
            | some a =>
              match foldAt fuel H a .graphc [] [nv, ev] with
              | some H1 => foldOnceAt H1 x .graphc [] [nv, ev]
              | none => none
            | none => none
          | _, _, _ => none

/-- Arity discipline of the predicate catalog (§4.2): `list` has no
parameters, `bintreep_o` one pointer parameter, `graphc` two set-variable
parameters. -/
def predArityOk : PredName → List Nat → List Nat → Bool
  | .list, [], [] => true
  | .bintreep_o, [_], [] => true
  | .graphc, [], [_, _] => true
  | _, _, _ => false

/-- Claim C6: for every predicate summary `S` in a symbolic heap, applying
`Unfold` to `S` and then immediately applying `Fold` on the resulting
explicit cell and residual summaries, with no intervening mutation, succeeds
and yields a summary whose predicate and parameter bindings are equal to
those of `S`. -/
theorem C6_fold_unfold (H : SymHeap) (x : Nat) (p : PredName)
    (ps ss : List Nat) (hfind : findSumm H.facts p x = some (ps, ss))
    (har : predArityOk p ps ss = true) :
    ∃ H1 H2, unfoldAt H x p = some H1 ∧
      foldAt (H1.facts.length + 1) H1 x p ps ss = some H2 ∧
      Fact.summ p x ps ss ∈ H2.facts := by
  by_cases hx : x = 0
  · subst hx
    refine ⟨⟨H.facts.erase (.summ p 0 ps ss), H.constraints⟩,
      ⟨Fact.summ p 0 ps ss :: H.facts.erase (.summ p 0 ps ss), H.constraints⟩,
      ?_, ?_, ?_⟩
    · simp [unfoldAt, hfind]
    · simp [foldAt, foldOnceAt]
    · simp
  · have hn : freshId H ≠ 0 := Nat.succ_ne_zero _
    cases p with
    | list =>
      cases ps with
      | cons a tl => simp [predArityOk] at har
      | nil =>
        cases ss with
        | cons a tl => simp [predArityOk] at har
        | nil =>
          refine ⟨⟨Fact.pts x [(.fnext, freshId H), (.fdata, freshId H + 1)] ::
              Fact.summ .list (freshId H) [] [] ::
              H.facts.erase (.summ .list x [] []), H.constraints⟩,
            ⟨Fact.summ .list x [] [] ::
              H.facts.erase (.summ .list x [] []), H.constraints⟩, ?_, ?_, ?_⟩
          · simp [unfoldAt, hfind, hx]
          · simp [foldAt, foldOnceAt, findPts, lookupField, findSumm, hx, hn,
              List.erase_cons_head]
          · simp
    | bintreep_o =>
      cases ps with
      | nil => simp [predArityOk] at har
      | cons par tl =>
        cases tl with
        | cons b tl2 => simp [predArityOk] at har
        | nil =>
          cases ss with
          | cons a tl => simp [predArityOk] at har
          | nil =>
            have hne2 : freshId H ≠ freshId H + 1 := by omega
            refine ⟨⟨Fact.pts x [(.fl, freshId H), (.fr, freshId H + 1),
                (.fp, par), (.fdata, freshId H + 2)] ::
              Fact.summ .bintreep_o (freshId H) [x] [] ::
              Fact.summ .bintreep_o (freshId H + 1) [x] [] ::
              H.facts.erase (.summ .bintreep_o x [par] []), H.constraints⟩,
              ⟨Fact.summ .bintreep_o x [par] [] ::
                H.facts.erase (.summ .bintreep_o x [par] []), H.constraints⟩,
              ?_, ?_, ?_⟩
            · simp [unfoldAt, hfind, hx]
            · simp [foldAt, foldOnceAt, findPts, lookupField, findSumm, hx, hn,
                hne2, List.erase_cons_head]
            · simp
    | graphc =>
      cases ps with
      | cons a tl => simp [predArityOk] at har
      | nil =>
        cases ss with
        | nil => simp [predArityOk] at har
        | cons nv tl =>
          cases tl with
          | nil => simp [predArityOk] at har
          | cons ev tl2 =>
            cases tl2 with
            | cons c tl3 => simp [predArityOk] at har
            | nil =>
              refine ⟨⟨Fact.pts x [(.fnext, freshId H), (.fedges, freshId H + 1),
                  (.fdata, freshId H + 2)] ::
                Fact.summ .graphc (freshId H) [] [freshId H + 3, freshId H + 4] ::
                H.facts.erase (.summ .graphc x [] [nv, ev]),
                (freshId H + 3, nv) :: (freshId H + 4, ev) :: H.constraints⟩,
                ⟨Fact.summ .graphc x [] [nv, ev] ::
                  H.facts.erase (.summ .graphc x [] [nv, ev]),
                  (freshId H + 3, nv) :: (freshId H + 4, ev) :: H.constraints⟩,
                ?_, ?_, ?_⟩
              · simp [unfoldAt, hfind, hx]
              · simp [foldAt, foldOnceAt, findPts, lookupField, findSumm, hx,
                  hn, List.erase_cons_head]
              · simp

/-- Witness for C6 at a concrete input: a heap holding one `bintreep_o`
summary at location 1 with parent parameter 7. -/
theorem C6_fold_unfold_witness :
    ∃ H1 H2,
      unfoldAt ⟨[.summ .bintreep_o 1 [7] []], []⟩ 1 .bintreep_o = some H1 ∧
        foldAt (H1.facts.length + 1) H1 1 .bintreep_o [7] [] = some H2 ∧
        Fact.summ .bintreep_o 1 [7] [] ∈ H2.facts :=
  C6_fold_unfold ⟨[.summ .bintreep_o 1 [7] []], []⟩ 1 .bintreep_o [7] []
    (by decide) (by decide)

/-! The disjointness invariant and the engine's primitive steps (claim C5). -/

/-- Modelled from the spec: the disjointness invariant (§3, §8) — every
non-null location is covered by at most one spatial fact: no two facts share
a non-null root (null roots only arise for discharged-at-null summaries and
cover no cell). -/
def disjointH (H : SymHeap) : Prop :=
  H.facts.Pairwise fun f g => f.root = 0 ∨ g.root = 0 ∨ f.root ≠ g.root

instance (H : SymHeap) : Decidable (disjointH H) := by
  unfold disjointH
  infer_instance

/-- Modelled from the spec: allocation (§3 lifecycle) — a fresh explicit cell
whose fields hold fresh symbolic values. -/
def allocAt (H : SymHeap) (fs : List FieldN) : SymHeap :=
  let n := freshId H
  ⟨Fact.pts n (fs.enum.map fun q => (q.2, n + 1 + q.1)) :: H.facts,
    H.constraints⟩

/-- Modelled from the spec: `free(x)` on an explicit cell (§4.3) — its edges
are removed (its location is a tombstone thereafter); freeing a folded or
null location fails. -/
def freeAt (H : SymHeap) (x : Nat) : Option SymHeap :=
  if x = 0 then none
  else
    match findPts H.facts x with
    | some flds => some ⟨H.facts.erase (.pts x flds), H.constraints⟩
    | none => none

/-- Modelled from the spec: a field write on an explicit cell (§4.1, §4.3). -/
def writeAt (H : SymHeap) (x : Nat) (f : FieldN) (v : Nat) : Option SymHeap :=
  if x = 0 then none
  else
    match findPts H.facts x with
    | some flds =>
      some ⟨Fact.pts x (flds.map fun q => if q.1 = f then (q.1, v) else q) ::
        H.facts.erase (.pts x flds), H.constraints⟩
    | none => none

/-- Modelled from the spec: the primitive operations the abstract execution
engine performs on the symbolic heap while executing a program (§4.3, §4.4):
allocation, free, field write, unfold (also the implicit materialization
before a field access), and the fold search (also widening at loop heads and
`check_inductive`). -/
inductive EngStep : SymHeap → SymHeap → Prop
  | alloc (H : SymHeap) (fs : List FieldN) : EngStep H (allocAt H fs)
  | free (H H' : SymHeap) (x : Nat) : freeAt H x = some H' → EngStep H H'
  | write (H H' : SymHeap) (x : Nat) (f : FieldN) (v : Nat) :
      writeAt H x f v = some H' → EngStep H H'
  | unf (H H' : SymHeap) (x : Nat) (p : PredName) :
      unfoldAt H x p = some H' → EngStep H H'
  | fold (H H' : SymHeap) (fuel : Nat) (x : Nat) (p : PredName)
      (ps ss : List Nat) : foldAt fuel H x p ps ss = some H' → EngStep H H'

/-- Reachability by engine steps. -/
def EngReach : SymHeap → SymHeap → Prop := Relation.ReflTransGen EngStep

/-- Elements are bounded by the fold of `max`. -/
theorem le_foldr_max {l : List Nat} {a : Nat} (h : a ∈ l) :
    a ≤ l.foldr max 0 := by
  induction l with
  | nil => cases h
  | cons b t ih =>
    rcases List.mem_cons.mp h with rfl | h'
    · exact le_max_left _ _
    · exact le_trans (ih h') (le_max_right _ _)

/-- The root of a stored fact is among the heap's identifiers. -/
theorem root_mem_heapIds {H : SymHeap} {f : Fact} (h : f ∈ H.facts) :
    f.root ∈ heapIds H := by
  refine List.mem_append_left _ (List.mem_flatMap.mpr ⟨f, h, ?_⟩)
  cases f with
  | pts r fs => exact List.mem_cons_self _ _
  | summ p r ps ss => exact List.mem_cons_self _ _

/-- Roots of stored facts are strictly below the fresh identifier. -/
theorem root_lt_freshId {H : SymHeap} {f : Fact} (h : f ∈ H.facts) :
    f.root < freshId H :=
  Nat.lt_succ_of_le (le_foldr_max (root_mem_heapIds h))

/-- A found points-to fact is stored. -/
theorem findPts_mem {facts : List Fact} {x : Nat} {flds : List (FieldN × Nat)}
    (h : findPts facts x = some flds) : Fact.pts x flds ∈ facts := by
  induction facts with
  | nil => cases h
  | cons f rest ih =>
    cases f with
    | pts r fs =>
      rw [findPts] at h
      by_cases hr : r = x
      · rw [if_pos hr] at h
        cases h
        subst hr
        exact List.mem_cons_self _ _
      · rw [if_neg hr] at h
        exact List.mem_cons_of_mem _ (ih h)
    | summ p r ps ss =>
      rw [findPts] at h
      exact List.mem_cons_of_mem _ (ih h)

/-- A found summary fact is stored. -/
theorem findSumm_mem {facts : List Fact} {p : PredName} {x : Nat}
    {ps ss : List Nat} (h : findSumm facts p x = some (ps, ss)) :
    Fact.summ p x ps ss ∈ facts := by
  induction facts with
  | nil => cases h
  | cons f rest ih =>
    cases f with
    | pts r fs =>
      rw [findSumm] at h
      exact List.mem_cons_of_mem _ (ih h)
    | summ p' r ps' ss' =>
      rw [findSumm] at h
      by_cases hr : p' = p ∧ r = x
      · rw [if_pos hr] at h
        cases h
        obtain ⟨rfl, rfl⟩ := hr
        exact List.mem_cons_self _ _
      · rw [if_neg hr] at h
        exact List.mem_cons_of_mem _ (ih h)

/-- The separation relation between two spatial facts. -/
def sepR (f g : Fact) : Prop := f.root = 0 ∨ g.root = 0 ∨ f.root ≠ g.root

/-- `disjointH` is pairwise separation. -/
theorem disjointH_iff (H : SymHeap) : disjointH H ↔ H.facts.Pairwise sepR :=
  Iff.rfl

/-- Erasing a fact preserves pairwise separation. -/
theorem sep_erase {facts : List Fact} (hp : facts.Pairwise sepR) (f : Fact) :
    (facts.erase f).Pairwise sepR :=
  hp.sublist (List.erase_sublist f facts)

/-- After erasing a stored fact with non-null root `x`, no remaining fact has
root `x`. -/
theorem sep_erase_root {facts : List Fact} (hp : facts.Pairwise sepR)
    {f : Fact} (hf : f ∈ facts) (hx : f.root ≠ 0) :
    ∀ g ∈ facts.erase f, g.root = 0 ∨ g.root ≠ f.root := by
  obtain ⟨l₁, l₂, _, hdec, herase⟩ := List.exists_erase_eq hf
  rw [herase]
  rw [hdec] at hp
  rw [List.pairwise_append] at hp
  obtain ⟨hp1, hp2, hcross⟩ := hp
  rw [List.pairwise_cons] at hp2
  intro g hg
  rcases List.mem_append.mp hg with hg1 | hg2
  · rcases hcross g hg1 f (List.mem_cons_self _ _) with h0 | h0 | hne
    · exact Or.inl h0
    · exact absurd h0 hx
    · exact Or.inr hne
  · rcases hp2.1 g hg2 with h0 | h0 | hne
    · exact absurd h0 hx
    · exact Or.inl h0
    · exact Or.inr (Ne.symm hne)

/-- Consing a fact whose root is absent (or null) preserves separation. -/
theorem sep_cons {facts : List Fact} (hp : facts.Pairwise sepR) (f : Fact)
    (hroot : ∀ g ∈ facts, g.root = 0 ∨ g.root ≠ f.root) :
    (f :: facts).Pairwise sepR := by
  rw [List.pairwise_cons]
  refine ⟨fun g hg => ?_, hp⟩
  rcases hroot g hg with h0 | hne
  · exact Or.inr (Or.inl h0)
  · exact Or.inr (Or.inr fun hc => hne (hc ▸ rfl))

/-- Consing a fact with a null root preserves separation. -/
theorem sep_cons_zero {facts : List Fact} (hp : facts.Pairwise sepR)
    {f : Fact} (hroot : f.root = 0) : (f :: facts).Pairwise sepR := by
  rw [List.pairwise_cons]
  exact ⟨fun g _ => Or.inl hroot, hp⟩

/-- `sep_cons` with the head fact's root named explicitly. -/
theorem sep_consR {facts : List Fact} (hp : facts.Pairwise sepR) (r : Nat)
    (f : Fact) (hfr : f.root = r)
    (hroot : ∀ g ∈ facts, g.root = 0 ∨ g.root ≠ r) :
    (f :: facts).Pairwise sepR :=
  sep_cons hp f fun g hg => hfr ▸ hroot g hg

/-- The workhorse: replacing a stored fact rooted at `x ≠ 0` by a new fact
rooted at `x` over any sub-multiset of the remainder preserves separation. -/
theorem sep_replace {facts : List Fact} (hp : facts.Pairwise sepR)
    {x : Nat} {f0 : Fact} (hx : x ≠ 0) (hroot0 : f0.root = x)
    (hmem : f0 ∈ facts) {rest' : List Fact}
    (hsub : List.Sublist rest' (facts.erase f0)) (f : Fact)
    (hroot : f.root = x) : (f :: rest').Pairwise sepR := by
  refine sep_cons ((sep_erase hp f0).sublist hsub) f fun g hg => ?_
  have hg' : g ∈ facts.erase f0 := hsub.subset hg
  rcases sep_erase_root hp hmem (hroot0 ▸ hx) g hg' with h0 | hne
  · exact Or.inl h0
  · exact Or.inr (by rw [hroot, ← hroot0]; exact hne)

/-- Allocation preserves disjointness: the new cell's location is fresh. -/
theorem sep_alloc (H : SymHeap) (fs : List FieldN) (hd : disjointH H) :
    disjointH (allocAt H fs) := by
  refine sep_cons hd _ fun g hg => Or.inr ?_
  have := root_lt_freshId hg
  show g.root ≠ freshId H
  omega

/-- `free` preserves disjointness: it only removes a fact. -/
theorem sep_free {H H' : SymHeap} {x : Nat} (h : freeAt H x = some H')
    (hd : disjointH H) : disjointH H' := by
  rw [freeAt] at h
  by_cases hx : x = 0
  · rw [if_pos hx] at h; cases h
  · rw [if_neg hx] at h
    cases hfp : findPts H.facts x with
    | none => rw [hfp] at h; cases h
    | some flds =>
      rw [hfp] at h
      cases h
      exact sep_erase hd _

/-- A field write preserves disjointness: it replaces the cell in place. -/
theorem sep_write {H H' : SymHeap} {x : Nat} {f : FieldN} {v : Nat}
    (h : writeAt H x f v = some H') (hd : disjointH H) : disjointH H' := by
  rw [writeAt] at h
  by_cases hx : x = 0
  · rw [if_pos hx] at h; cases h
  · rw [if_neg hx] at h
    cases hfp : findPts H.facts x with
    | none => rw [hfp] at h; cases h
    | some flds =>
      rw [hfp] at h
      cases h
      exact sep_replace hd hx (show (Fact.pts x flds).root = x from rfl)
        (findPts_mem hfp) (List.Sublist.refl _) _ rfl

/-- `Unfold` preserves disjointness: the materialized cell keeps the
summary's root and the residual summaries get fresh roots. -/
theorem sep_unfold {H H' : SymHeap} {x : Nat} {p : PredName}
    (h : unfoldAt H x p = some H') (hd : disjointH H) : disjointH H' := by
  rw [unfoldAt] at h
  cases hfs : findSumm H.facts p x with
  | none => rw [hfs] at h; cases h
  | some pr =>
    obtain ⟨ps, ss⟩ := pr
    rw [hfs] at h
    dsimp only at h
    have hmem := findSumm_mem hfs
    have hrest : (H.facts.erase (Fact.summ p x ps ss)).Pairwise sepR :=
      sep_erase hd _
    have hrsub : ∀ g ∈ H.facts.erase (Fact.summ p x ps ss), g ∈ H.facts :=
      fun g hg => (List.erase_sublist _ _).subset hg
    by_cases hx : x = 0
    · rw [if_pos hx] at h
      cases h
      exact hrest
    · rw [if_neg hx] at h
      have hxlt : x < freshId H := root_lt_freshId hmem
      have hrroot := sep_erase_root hd hmem hx
      have hfresh : ∀ g ∈ H.facts.erase (Fact.summ p x ps ss),
          ∀ k, freshId H ≤ k → g.root = 0 ∨ g.root ≠ k := fun g hg k hk =>
        Or.inr (by have := root_lt_freshId (hrsub g hg); omega)
      cases p with
      | list =>
        cases ps with
        | cons _ _ => simp at h
        | nil =>
          cases ss with
          | cons _ _ => simp at h
          | nil =>
            dsimp only at h
            cases h
            refine sep_consR (sep_consR hrest (freshId H)
              (Fact.summ .list (freshId H) [] []) rfl fun g hg =>
              hfresh g hg _ (Nat.le_refl _)) x _ rfl fun g hg => ?_
            rcases List.mem_cons.mp hg with rfl | hg'
            · exact Or.inr (by show freshId H ≠ x; omega)
            · exact hrroot g hg'
      | bintreep_o =>
        cases ps with
        | nil => simp at h
        | cons par tl =>
          cases tl with
          | cons _ _ => simp at h
          | nil =>
            cases ss with
            | cons _ _ => simp at h
            | nil =>
              dsimp only at h
              cases h
              refine sep_consR (sep_consR (sep_consR hrest (freshId H + 1)
                (Fact.summ .bintreep_o (freshId H + 1) [x] []) rfl
                fun g hg => hfresh g hg _ (Nat.le_succ _)) (freshId H)
                (Fact.summ .bintreep_o (freshId H) [x] []) rfl
                fun g hg => ?_) x _ rfl fun g hg => ?_
              · rcases List.mem_cons.mp hg with rfl | hg'
                · exact Or.inr (by show freshId H + 1 ≠ freshId H; omega)
                · exact hfresh g hg' _ (Nat.le_refl _)
              · rcases List.mem_cons.mp hg with rfl | hg'
                · exact Or.inr (by show freshId H ≠ x; omega)
                · rcases List.mem_cons.mp hg' with rfl | hg''
                  · exact Or.inr (by show freshId H + 1 ≠ x; omega)
                  · exact hrroot g hg''
      | graphc =>
        cases ps with
        | cons _ _ => simp at h
        | nil =>
          cases ss with
          | nil => simp at h
          | cons nv tl =>
            cases tl with
            | nil => simp at h
            | cons ev tl2 =>
              cases tl2 with
              | cons _ _ => simp at h
              | nil =>
                dsimp only at h
                cases h
                refine sep_consR (sep_consR hrest (freshId H)
                  (Fact.summ .graphc (freshId H) [] [freshId H + 3, freshId H + 4])
                  rfl fun g hg => hfresh g hg _ (Nat.le_refl _)) x _ rfl
                  fun g hg => ?_
                rcases List.mem_cons.mp hg with rfl | hg'
                · exact Or.inr (by show freshId H ≠ x; omega)
                · exact hrroot g hg'

/-- A one-step `Fold` preserves disjointness: the new summary takes over the
folded cell's root, and only stored facts are consumed. -/
theorem sep_foldOnce {H H' : SymHeap} {x : Nat} {p : PredName}
    {ps ss : List Nat} (h : foldOnceAt H x p ps ss = some H')
    (hd : disjointH H) : disjointH H' := by
  rw [foldOnceAt] at h
  by_cases hx : x = 0
  · rw [if_pos hx] at h
    cases h
    exact sep_cons_zero hd (by simp [Fact.root, hx])
  · rw [if_neg hx] at h
    cases hfp : findPts H.facts x with
    | none => rw [hfp] at h; cases h
    | some flds =>
      rw [hfp] at h
      dsimp only at h
      have hmem := findPts_mem hfp
      have hroot0 : (Fact.pts x flds).root = x := rfl
      cases p with
      | list =>
        cases ps with
        | cons _ _ => simp at h
        | nil =>
          cases ss with
          | cons _ _ => simp at h
          | nil =>
            dsimp only at h
            cases h1 : lookupField flds .fnext with
            | none => rw [h1] at h; simp at h
            | some a =>
              rw [h1] at h
              cases h2 : lookupField flds .fdata with
              | none => rw [h2] at h; simp at h
              | some d =>
                rw [h2] at h
                dsimp only at h
                by_cases ha : a = 0
                · rw [if_pos ha] at h
                  cases h
                  exact sep_replace hd hx hroot0 hmem (List.Sublist.refl _) _ rfl
                · rw [if_neg ha] at h
                  cases h3 : findSumm H.facts .list a with
                  | none => rw [h3] at h; simp at h
                  | some pr =>
                    obtain ⟨pls, sls⟩ := pr
                    rw [h3] at h
                    cases pls with
                    | cons _ _ => simp at h
                    | nil =>
                      cases sls with
                      | cons _ _ => simp at h
                      | nil =>
                        dsimp only at h
                        cases h
                        exact sep_replace hd hx hroot0 hmem
                          (List.erase_sublist _ _) _ rfl
      | bintreep_o =>
        cases ps with
        | nil => simp at h
        | cons par tl =>
          cases tl with
          | cons _ _ => simp at h
          | nil =>
            cases ss with
            | cons _ _ => simp at h
            | nil =>
              dsimp only at h
              cases h1 : lookupField flds .fl with
              | none => rw [h1] at h; simp at h
              | some a =>
                rw [h1] at h
                cases h2 : lookupField flds .fr with
                | none => rw [h2] at h; simp at h
                | some b =>
                  rw [h2] at h
                  cases h3 : lookupField flds .fp with
                  | none => rw [h3] at h; simp at h
                  | some pv =>
                    rw [h3] at h
                    cases h4 : lookupField flds .fdata with
                    | none => rw [h4] at h; simp at h
                    | some d =>
                      rw [h4] at h
                      dsimp only at h
                      by_cases hpv : pv = par
                      · rw [if_pos hpv] at h
                        have hstep : ∀ rest1 : List Fact,
                            List.Sublist rest1 (H.facts.erase (.pts x flds)) →
                            (if b = 0 then
                                some ⟨Fact.summ .bintreep_o x [par] [] :: rest1,
                                  H.constraints⟩
                              else
                                match findSumm H.facts .bintreep_o b with
                                | some (pls, sls) =>
                                  if pls = [x] ∧ sls = [] then
                                    some ⟨Fact.summ .bintreep_o x [par] [] ::
                                      rest1.erase (.summ .bintreep_o b [x] []),
                                      H.constraints⟩
                                  else none
                                | none => none) = some H' → disjointH H' := by
                          intro rest1 hsub hb
                          by_cases hb0 : b = 0
                          · rw [if_pos hb0] at hb
                            cases hb
                            exact sep_replace hd hx hroot0 hmem hsub _ rfl
                          · rw [if_neg hb0] at hb
                            cases h5 : findSumm H.facts .bintreep_o b with
                            | none => rw [h5] at hb; simp at hb
                            | some pr =>
                              obtain ⟨pls, sls⟩ := pr
                              rw [h5] at hb
                              dsimp only at hb
                              by_cases hps : pls = [x] ∧ sls = []
                              · rw [if_pos hps] at hb
                                cases hb
                                exact sep_replace hd hx hroot0 hmem
                                  ((List.erase_sublist _ _).trans hsub) _ rfl
                              · rw [if_neg hps] at hb
                                cases hb
                        by_cases ha : a = 0
                        · rw [if_pos ha] at h
                          dsimp only at h
                          exact hstep _ (List.Sublist.refl _) h
                        · rw [if_neg ha] at h
                          cases h5 : findSumm H.facts .bintreep_o a with
                          | none => rw [h5] at h; simp at h
                          | some pr =>
                            obtain ⟨pls, sls⟩ := pr
                            rw [h5] at h
                            dsimp only at h
                            by_cases hps : pls = [x] ∧ sls = []
                            · rw [if_pos hps] at h
                              dsimp only at h
                              exact hstep _ (List.erase_sublist _ _) h
                            · rw [if_neg hps] at h
                              simp at h
                      · rw [if_neg hpv] at h
                        cases h
      | graphc =>
        cases ps with
        | cons _ _ => simp at h
        | nil =>
          cases ss with
          | nil => simp at h
          | cons nv tl =>
            cases tl with
            | nil => simp at h
            | cons ev tl2 =>
              cases tl2 with
              | cons _ _ => simp at h
              | nil =>
                dsimp only at h
                cases h1 : lookupField flds .fnext with
                | none => rw [h1] at h; simp at h
                | some a =>
                  rw [h1] at h
                  cases h2 : lookupField flds .fedges with
                  | none => rw [h2] at h; simp at h
                  | some e =>
                    rw [h2] at h
                    cases h3 : lookupField flds .fdata with
                    | none => rw [h3] at h; simp at h
                    | some d =>
                      rw [h3] at h
                      dsimp only at h
                      by_cases ha : a = 0
                      · rw [if_pos ha] at h
                        cases h
                        exact sep_replace hd hx hroot0 hmem
                          (List.Sublist.refl _) _ rfl
                      · rw [if_neg ha] at h
                        cases h4 : findSumm H.facts .graphc a with
                        | none => rw [h4] at h; simp at h
                        | some pr =>
                          obtain ⟨pls, sls⟩ := pr
                          rw [h4] at h
                          cases pls with
                          | cons _ _ => simp at h
                          | nil =>
                            cases sls with
                            | nil => simp at h
                            | cons nv' tl' =>
                              cases tl' with
                              | nil => simp at h
                              | cons ev' tl2' =>
                                cases tl2' with
                                | cons _ _ => simp at h
                                | nil =>
                                  dsimp only at h
                                  by_cases hc : (nv', nv) ∈ H.constraints ∧
                                      (ev', ev) ∈ H.constraints
                                  · rw [if_pos hc] at h
                                    cases h
                                    exact sep_replace hd hx hroot0 hmem
                                      (List.erase_sublist _ _) _ rfl
                                  · rw [if_neg hc] at h
                                    cases h

/-- The full `Fold` search preserves disjointness. -/
theorem sep_foldAt : ∀ (fuel : Nat) {H : SymHeap} {x : Nat} {p : PredName}
    {ps ss : List Nat} {H' : SymHeap},
    foldAt fuel H x p ps ss = some H' → disjointH H → disjointH H' := by
  intro fuel
  induction fuel with
  | zero => intro H x p ps ss H' h hd; rw [foldAt] at h; cases h
  | succ fuel ih =>
    intro H x p ps ss H' h hd
    rw [foldAt] at h
    cases hfo : foldOnceAt H x p ps ss with
    | some H1 =>
      rw [hfo] at h
      dsimp only at h
      cases h
      exact sep_foldOnce hfo hd
    | none =>
      rw [hfo] at h
      dsimp only at h
      by_cases hx : x = 0
      · rw [if_pos hx] at h; cases h
      · rw [if_neg hx] at h
        cases hfp : findPts H.facts x with
        | none => rw [hfp] at h; cases h
        | some flds =>
          rw [hfp] at h
          dsimp only at h
          cases p with
          | list =>
            cases ps with
            | cons _ _ => simp at h
            | nil =>
              cases ss with
              | cons _ _ => simp at h
              | nil =>
                dsimp only at h
                cases h1 : lookupField flds .fnext with
                | none => rw [h1] at h; simp at h
                | some a =>
                  rw [h1] at h
                  dsimp only at h
                  cases h2 : foldAt fuel H a .list [] [] with
                  | none => rw [h2] at h; simp at h
                  | some H1 =>
                    rw [h2] at h
                    dsimp only at h
                    exact sep_foldOnce h (ih h2 hd)
          | bintreep_o =>
            cases ps with
            | nil => simp at h
            | cons par tl =>
              cases tl with
              | cons _ _ => simp at h
              | nil =>
                cases ss with
                | cons _ _ => simp at h
                | nil =>
                  dsimp only at h
                  cases h1 : lookupField flds .fl with
                  | none => rw [h1] at h; simp at h
                  | some a =>
                    rw [h1] at h
                    cases h2 : lookupField flds .fr with
                    | none => rw [h2] at h; simp at h
                    | some b =>
                      rw [h2] at h
                      dsimp only at h
                      by_cases hca : a ≠ 0 ∧ (findPts H.facts a).isSome
                      · rw [if_pos hca] at h
                        cases h3 : foldAt fuel H a .bintreep_o [x] [] with
                        | none => rw [h3] at h; simp at h
                        | some H1 =>
                          rw [h3] at h
                          dsimp only at h
                          have hd1 := ih h3 hd
                          by_cases hcb : b ≠ 0 ∧ (findPts H1.facts b).isSome
                          · rw [if_pos hcb] at h
                            cases h4 : foldAt fuel H1 b .bintreep_o [x] [] with
                            | none => rw [h4] at h; simp at h
                            | some H2 =>
                              rw [h4] at h
                              dsimp only at h
                              exact sep_foldOnce h (ih h4 hd1)
                          · rw [if_neg hcb] at h
                            dsimp only at h
                            exact sep_foldOnce h hd1
                      · rw [if_neg hca] at h
                        dsimp only at h
                        by_cases hcb : b ≠ 0 ∧ (findPts H.facts b).isSome
                        · rw [if_pos hcb] at h
                          cases h4 : foldAt fuel H b .bintreep_o [x] [] with
                          | none => rw [h4] at h; simp at h
                          | some H2 =>
                            rw [h4] at h
                            dsimp only at h
                            exact sep_foldOnce h (ih h4 hd)
                        · rw [if_neg hcb] at h
                          dsimp only at h
                          exact sep_foldOnce h hd
          | graphc =>
            cases ps with
            | cons _ _ => simp at h
            | nil =>
              cases ss with
              | nil => simp at h
              | cons nv tl =>
                cases tl with
                | nil => simp at h
                | cons ev tl2 =>
                  cases tl2 with
                  | cons _ _ => simp at h
                  | nil =>
                    dsimp only at h
                    cases h1 : lookupField flds .fnext with
                    | none => rw [h1] at h; simp at h
                    | some a =>
                      rw [h1] at h
                      dsimp only at h
                      cases h2 : foldAt fuel H a .graphc [] [nv, ev] with
                      | none => rw [h2] at h; simp at h
                      | some H1 =>
                        rw [h2] at h
                        dsimp only at h
                        exact sep_foldOnce h (ih h2 hd)

/-- Every primitive engine step preserves disjointness. -/
theorem sep_step {H H' : SymHeap} (h : EngStep H H') (hd : disjointH H) :
    disjointH H' := by
  cases h with
  | alloc fs => exact sep_alloc H fs hd
  | free H2 x hf => exact sep_free hf hd
  | write H2 x f v hw => exact sep_write hw hd
  | unf H2 x p hu => exact sep_unfold hu hd
  | fold H2 fuel x p ps ss hf => exact sep_foldAt fuel hf hd

/-- Disjointness is invariant under reachability by engine steps. -/
theorem sep_reach {H0 H : SymHeap} (hr : EngReach H0 H)
    (hd : disjointH H0) : disjointH H := by
  induction hr with
  | refl => exact hd
  | tail hab hbc ih => exact sep_step hbc ih

/-- The seeded initial symbolic heap of the list program: no directive runs
before the loop, so it is empty. -/
def initListSym : SymHeap := ⟨[], []⟩

/-- The seeded initial symbolic heap of the tree program, installed by
`add_inductive( t, bintreep_o, [ p | | ] )`: root value 1, parent-parameter
value 2. -/
def initTreeSym : SymHeap := ⟨[.summ .bintreep_o 1 [2] []], []⟩

/-- The seeded initial symbolic heap of the graph program, installed by
`decl_setvars( E, F )`, `set_assume ( F $sub E)` and
`add_inductive( l, graphc, [ | | F, E] )`: root value 1, set variables
`F = 2` and `E = 3` with the subset constraint `F ⊆ E`. -/
def initGraphSym : SymHeap := ⟨[.summ .graphc 1 [] [2, 3]], [(2, 3)]⟩

/-- Claim C5: at every `ProgramState` reachable by engine steps while
executing any of the three corpus programs — i.e. from that program's seeded
initial symbolic heap, by any sequence of the primitive operations
allocation, free, field write, unfold and fold — each non-null location is
covered by exactly one spatial fact: no location roots two `PointsToEdges`
and none is simultaneously explicit and folded into a `PredicateSummary`. -/
theorem C5_disjointness (H0 H : SymHeap)
    (hinit : H0 ∈ [initListSym, initTreeSym, initGraphSym])
    (hreach : EngReach H0 H) : disjointH H := by
  refine sep_reach hreach ?_
  rcases List.mem_cons.mp hinit with rfl | h1
  · decide
  rcases List.mem_cons.mp h1 with rfl | h2
  · decide
  rcases List.mem_cons.mp h2 with rfl | h3
  · decide
  · cases h3

/-- Witness for C5 at a concrete input: the tree program's seeded heap and
the empty step sequence. -/
theorem C5_disjointness_witness : disjointH initTreeSym :=
  C5_disjointness initTreeSym initTreeSym (by decide)
    Relation.ReflTransGen.refl

end Memcad
